import Mathlib

/-!
Verification of the date-extraction engine in `extract_dates_from_csv.py`.

Strings are embedded as `List Char` (Python `str` values); absent / non-string
inputs are embedded as `none : Option (List Char)`.  All functions are
translated from the Python source; external date-parsing libraries
(datefinder, dateparser, parsedatetime, dateutil) are not part of the
repository and are treated as parameters of the pipeline, except for one
concrete model of the dateutil fuzzy parser used where a claim needs it.
-/

namespace ExtractDates

/-- Embeds `str` literals as the `List Char` representation used throughout. -/
def str (s : String) : List Char := s.data

/-- `plausible_year` (source lines 89-94): the year window accepted by every
component.  The Python function takes any value and applies `int`; in the
pipeline it is only ever applied to integers, so the embedding takes `Int`. -/
def plausible_year (y : Int) : Bool := decide (1980 ≤ y ∧ y ≤ 2039)

/-- The century-expansion idiom repeated throughout the source
(`for century in [1900, 2000]: if plausible_year(yy + century): yy = ...; break`):
the first plausible offset wins; when neither offset is plausible the value is
left unchanged (every caller then fails its `plausible_year` test). -/
def expandTwoDigitYear (y : Nat) : Nat :=
  if plausible_year (1900 + y) then 1900 + y
  else if plausible_year (2000 + y) then 2000 + y
  else y

/-- `DELIM_LIST` (source line 87). -/
def DELIM_LIST : List Char := ['-', '_', '/', '\\', '.']

/-- Membership in the `DELIMS` regex character class `[-_/\\.]` (source line 86). -/
def isDelim (c : Char) : Bool := DELIM_LIST.contains c

/-- Length of the maximal leading digit run, used to model `\d{lo,hi}` fields. -/
def leadDigits (l : List Char) : Nat := (l.takeWhile Char.isDigit).length

/-- `int` applied to a digit string. -/
def decodeNat (l : List Char) : Nat :=
  l.foldl (fun n c => 10 * n + (c.toNat - 48)) 0

/-- `int` applied to an arbitrary string: `none` models the `ValueError` branch
(the surrounding `except` clauses turn it into a rejection). -/
def decodeDigits (l : List Char) : Option Nat :=
  if l ≠ [] ∧ l.all Char.isDigit then some (decodeNat l) else none

/-- `f"{n:0wd}"`: decimal digits of `n`, zero-padded on the left to width `w`. -/
def pad (w : Nat) (n : Nat) : List Char :=
  let ds := Nat.toDigits 10 n
  List.replicate (w - ds.length) '0' ++ ds

/-- `f"{y:04d}-{m:02d}-{d:02d}"`, the canonical output format (also
`datetime.date.isoformat` and `strftime('%Y-%m-%d')` for in-range years). -/
def fmtDate (y m d : Nat) : List Char :=
  pad 4 y ++ '-' :: (pad 2 m ++ '-' :: pad 2 d)

/-- Python `str.strip()` (whitespace from both ends). -/
def trimChars (l : List Char) : List Char :=
  ((l.dropWhile Char.isWhitespace).reverse.dropWhile Char.isWhitespace).reverse

/-!
### The regex matcher

Every regex in the source is a sequence of digit fields `\d{lo,hi}` joined by
single separator characters (either one escaped delimiter or the class
`DELIMS`).  Because a separator is never a digit, backtracking is
deterministic: an interior field must consume an entire maximal digit run and
the final field consumes greedily up to its upper bound.  `matchFields`
returns the list of captured groups and the total length of the (leftmost,
greedy) match starting at the head of `l`, exactly as Python `re` would
produce it.
-/

/-- Match `\d{lo1,hi1} sep \d{lo2,hi2} sep ...` at the head of `l`; returns
(captured digit groups, total matched length). -/
def matchFields : List (Nat × Nat) → (Char → Bool) → List Char →
    Option (List (List Char) × Nat)
  | [], _, _ => none
  | [(lo, hi)], _, l =>
    let r := leadDigits l
    if lo ≤ r then some ([l.take (min hi r)], min hi r) else none
  | (lo, hi) :: f :: fs, sep, l =>
    let r := leadDigits l
    if lo ≤ r ∧ r ≤ hi then
      match l.drop r with
      | c :: l2 =>
        if sep c then
          match matchFields (f :: fs) sep l2 with
          | some (gs, L) => some (l.take r :: gs, r + 1 + L)
          | none => none
        else none
      | [] => none
    else none

/-- `re.finditer` over `rest` with a per-match acceptance test: successive
non-overlapping greedy matches are produced left to right; the first match
`accept` turns into `some` is returned.  `prev` is the character immediately
before the current scan position (for lookaround-style border checks).
`fuel` only ensures termination; callers pass `rest.length + 1`. -/
def scanMatches (fields : List (Nat × Nat)) (sep : Char → Bool)
    (accept : Option Char → List Char → List Char → List (List Char) → Option α) :
    Nat → Option Char → List Char → Option α
  | 0, _, _ => none
  | fuel + 1, prev, rest =>
    match matchFields fields sep rest with
    | some (gs, L) =>
      (accept prev (rest.take L) (rest.drop L) gs).orElse fun _ =>
        scanMatches fields sep accept fuel (rest.take L).getLast? (rest.drop L)
    | none =>
      match rest with
      | [] => none
      | c :: rs => scanMatches fields sep accept fuel (some c) rs

/-!
### The group locator (`extract_same_delim_group_from_reversed`, lines 96-204)
-/

/-- Lines 123-163: acceptance test for a 3-field candidate, trying the
MM-DD-YY reading first, then YY-MM-DD, with century expansion of 2-digit
years.  (`str.strip` on the fields is the identity: they are digit runs.) -/
def qualify3 (groups : List (List Char)) : Bool :=
  match groups with
  | [a, b, c] =>
    let try1 :=
      match decodeDigits a, decodeDigits b, decodeDigits c with
      | some mm, some dd, some yy0 =>
        let yy := if yy0 < 100 then expandTwoDigitYear yy0 else yy0
        decide (1 ≤ mm ∧ mm ≤ 12) && decide (1 ≤ dd ∧ dd ≤ 31) &&
          plausible_year yy
      | _, _, _ => false
    if try1 then true
    else
      match decodeDigits a, decodeDigits b, decodeDigits c with
      | some yy0, some mm, some dd =>
        let yy := if yy0 < 100 then expandTwoDigitYear yy0 else yy0
        decide (1 ≤ mm ∧ mm ≤ 12) && decide (1 ≤ dd ∧ dd ≤ 31) &&
          plausible_year yy
      | _, _, _ => false
  | _ => false

/-- Lines 164-197: acceptance test for a 2-field candidate: the MM/YYYY
reading when the first field can be a month and the second a year, `elif` the
YYYY/MM reading; century expansion applies to 2-digit years. -/
def qualify2 (groups : List (List Char)) : Bool :=
  match groups with
  | [g1, g2] =>
    let mm_first := decide (1 ≤ g1.length ∧ g1.length ≤ 2) && g1.all Char.isDigit
    let yy_first := decide (g1.length = 2 ∨ g1.length = 4) && g1.all Char.isDigit
    let mm_second := decide (1 ≤ g2.length ∧ g2.length ≤ 2) && g2.all Char.isDigit
    let yy_second := decide (g2.length = 2 ∨ g2.length = 4) && g2.all Char.isDigit
    if mm_first && yy_second then
      match decodeDigits g1, decodeDigits g2 with
      | some mm, some yy0 =>
        let yy := if yy0 < 100 then expandTwoDigitYear yy0 else yy0
        decide (1 ≤ mm ∧ mm ≤ 12) && plausible_year yy
      | _, _ => false
    else if yy_first && mm_second then
      match decodeDigits g1, decodeDigits g2 with
      | some yy0, some mm =>
        let yy := if yy0 < 100 then expandTwoDigitYear yy0 else yy0
        decide (1 ≤ mm ∧ mm ≤ 12) && plausible_year yy
      | _, _ => false
    else false
  | _ => false

/-- Lines 119-202: the full qualification test run on the candidate after it
has been reversed back to original orientation: split on the delimiter,
drop empty fields, field count and no-space check, numeric plausibility,
and the no-foreign-delimiter check. -/
def candidateOk (cand : List Char) (delim : Char) (n : Nat) : Bool :=
  let split_groups := (cand.splitOn delim).filter (· ≠ [])
  if split_groups.length = n ∧ ¬cand.contains ' ' then
    let ok :=
      if n = 3 then qualify3 split_groups
      else if n = 2 then qualify2 split_groups
      else true
    ok && !((DELIM_LIST.filter (· ≠ delim)).any fun d => cand.contains d)
  else false

/-- The four `(n_groups, pattern)` pairs of lines 103-108, as digit-field
shapes (the patterns are applied to the reversed text). -/
def locatorPatterns : List (Nat × List (Nat × Nat)) :=
  [(3, [(1, 2), (1, 2), (2, 4)]),
   (3, [(2, 4), (1, 2), (1, 2)]),
   (2, [(1, 2), (2, 4)]),
   (2, [(2, 4), (1, 2)])]

/-- Lines 110-203: per-match processing: the border test (`before`/`after`
must not be digits, where `before` is the character preceding the match in
the reversed text) and the qualification test on the reversed-back candidate. -/
def locatorAccept (delim : Char) (n : Nat) (prev : Option Char)
    (matched after : List Char) (_gs : List (List Char)) : Option (List Char) :=
  let borderOk := (prev.all fun c => !c.isDigit) &&
    (after.head?.all fun c => !c.isDigit)
  let cand := matched.reverse
  if borderOk && candidateOk cand delim n then some cand else none

/-- Core of `extract_same_delim_group_from_reversed` on an actual string:
reverse the text, then for each delimiter in order and each pattern in order,
return the first qualifying match. -/
def extractCore (t : List Char) : Option (List Char × Char × Nat) :=
  let rev := t.reverse
  DELIM_LIST.findSome? fun delim =>
    locatorPatterns.findSome? fun p =>
      (scanMatches p.2 (· == delim) (locatorAccept delim p.1)
          (rev.length + 1) none rev).map fun cand => (cand, delim, p.1)

/-- `extract_same_delim_group_from_reversed(text, num_groups)` (lines 96-204).
A non-string input is `none`.  The Python return `('', '', 0)` is modelled as
`([], none, 0)`; a found group always has a nonempty group string and a
one-character delimiter string, modelled as `some` of the character.
`num_groups` is a parameter of the source function but is never read in its
body. -/
def extract_same_delim_group_from_reversed (text : Option (List Char))
    (num_groups : Nat) : List Char × Option Char × Nat :=
  match text with
  | none => ([], none, 0)
  | some t =>
    match extractCore t with
    | some (g, d, n) => (g, some d, n)
    | none => ([], none, 0)

/-- Lines 421-434 of `process_chunk`: the "Evaluated string element" computed
for one row: call the locator asking for 3 then for 2 fields; use the result
verbatim when it splits into exactly 3 parts, else build the 2-field
expansion `parts[0] + delim + "01" + delim + parts[1]`, else the empty
string.  (Indexing `parts[0]`/`parts[1]` is guarded by `splitcount2 == 2`.) -/
def evaluated_element (text : Option (List Char)) : List Char :=
  let r3 := extract_same_delim_group_from_reversed text 3
  let group3 := r3.1
  let delim3 := r3.2.1
  let splitcount3 :=
    match delim3 with
    | some d => if group3 ≠ [] then (group3.splitOn d).length else 0
    | none => 0
  let r2 := extract_same_delim_group_from_reversed text 2
  let group2 := r2.1
  let delim2 := r2.2.1
  let splitcount2 :=
    match delim2 with
    | some d => if group2 ≠ [] then (group2.splitOn d).length else 0
    | none => 0
  if group3 ≠ [] ∧ delim3 ≠ none ∧ splitcount3 = 3 then group3
  else
    match delim2 with
    | some d2 =>
      if group2 ≠ [] ∧ splitcount2 = 2 then
        let parts := group2.splitOn d2
        parts.getD 0 [] ++ d2 :: '0' :: '1' :: d2 :: parts.getD 1 []
      else []
    | none => []

/-- Line 449: the `is_two_group` flag of `process_chunk`. -/
def twoGroupFlag (text : Option (List Char)) : Bool :=
  let r3 := extract_same_delim_group_from_reversed text 3
  let splitcount3 :=
    match r3.2.1 with
    | some d => if r3.1 ≠ [] then (r3.1.splitOn d).length else 0
    | none => 0
  let r2 := extract_same_delim_group_from_reversed text 2
  let splitcount2 :=
    match r2.2.1 with
    | some d => if r2.1 ≠ [] then (r2.1.splitOn d).length else 0
    | none => 0
  decide (r2.1 ≠ [] ∧ r2.2.1 ≠ none ∧ splitcount2 = 2) &&
    !decide (r3.1 ≠ [] ∧ r3.2.1 ≠ none ∧ splitcount3 = 3)

/-!
### The date standardizer (`standardize_date`, lines 220-286)

The six rules are embedded as one `Option`-returning function each: `none`
means the rule's pattern did not match (fall through to the next rule), and
`some r` means the rule fired and the function returns `r` (possibly the
empty string for an implausible value).  The `dateutil` fuzzy parse of the
final rule is an external library and is a parameter `fz`; an exception
inside it is modelled by `fz` returning `none`.
-/

/-- The value produced by Python `datetime`/`date` objects as handed back by
the parsing libraries: the `datetime` constructor itself guarantees the
month and day ranges (it also guarantees `day` fits the month, which the
bounds here do not need to record). -/
structure PyDate where
  year : Nat
  month : Nat
  day : Nat
  month_ge : 1 ≤ month
  month_le : month ≤ 12
  day_ge : 1 ≤ day
  day_le : day ≤ 31

/-- Gregorian leap-year rule, as implemented by Python `datetime`. -/
def isLeapYear (y : Nat) : Bool :=
  y % 4 = 0 && (y % 100 ≠ 0 || y % 400 = 0)

/-- Month lengths, as enforced by the Python `datetime` constructor. -/
def daysInMonth (y m : Nat) : Nat :=
  if m = 2 then (if isLeapYear y then 29 else 28)
  else if m = 4 ∨ m = 6 ∨ m = 9 ∨ m = 11 then 30
  else 31

/-- `datetime(year, month, day)` raises `ValueError` outside these bounds. -/
def validDatetime (y m d : Nat) : Prop :=
  1 ≤ y ∧ y ≤ 9999 ∧ 1 ≤ m ∧ m ≤ 12 ∧ 1 ≤ d ∧ d ≤ daysInMonth y m

instance (y m d : Nat) : Decidable (validDatetime y m d) := by
  unfold validDatetime; infer_instance

/-- Splits off the maximal leading digit run: the pieces a `fullmatch` of a
digit-field pattern must align with (a separator is never a digit). -/
def splitLead (s : List Char) : List Char × List Char :=
  (s.takeWhile Char.isDigit, s.drop (s.takeWhile Char.isDigit).length)

/-- Rule 1 (lines 224-229): `re.fullmatch(r'\d{4}', s)` — a bare year. -/
def stdRule1 (s : List Char) : Option (List Char) :=
  if s.length = 4 ∧ s.all Char.isDigit then
    let year := decodeNat s
    some (if plausible_year year then fmtDate year 1 1 else [])
  else none

/-- Rule 2 (lines 230-244): `re.fullmatch(r'(\d{1,2})DELIMS(\d{2,4})', s)` —
month/year.  In a full match the first field is the maximal leading digit
run (the separator is not a digit) and the second field is the rest. -/
def stdRule2 (s : List Char) : Option (List Char) :=
  match splitLead s with
  | (a, c :: rest) =>
    if (1 ≤ a.length ∧ a.length ≤ 2) ∧ isDelim c ∧
        (2 ≤ rest.length ∧ rest.length ≤ 4) ∧ rest.all Char.isDigit then
      let mm := decodeNat a
      let yy0 := decodeNat rest
      let yy := if yy0 < 100 then expandTwoDigitYear yy0 else yy0
      some (if 1 ≤ mm ∧ mm ≤ 12 ∧ plausible_year yy then fmtDate yy mm 1 else [])
    else none
  | (_, []) => none

/-- Rule 3 (lines 245-259): `re.fullmatch(r'(\d{4})DELIMS(\d{1,2})', s)` —
year/month.  (The dead `yy < 100` test of the source is kept.) -/
def stdRule3 (s : List Char) : Option (List Char) :=
  match splitLead s with
  | (a, c :: rest) =>
    if a.length = 4 ∧ isDelim c ∧
        (1 ≤ rest.length ∧ rest.length ≤ 2) ∧ rest.all Char.isDigit then
      let yy0 := decodeNat a
      let mm := decodeNat rest
      let yy := if yy0 < 100 then expandTwoDigitYear yy0 else yy0
      some (if 1 ≤ mm ∧ mm ≤ 12 ∧ plausible_year yy then fmtDate yy mm 1 else [])
    else none
  | (_, []) => none

/-- Rule 4 (lines 260-276):
`re.fullmatch(r'(\d{1,2})DELIMS(\d{1,2})DELIMS(\d{2,4})', s)` — three fields,
read month/day/year first and day/month/year (swapped) second. -/
def stdRule4 (s : List Char) : Option (List Char) :=
  match splitLead s with
  | (a, c1 :: rest1) =>
    match splitLead rest1 with
    | (b, c2 :: rest2) =>
      if (1 ≤ a.length ∧ a.length ≤ 2) ∧ isDelim c1 ∧
          (1 ≤ b.length ∧ b.length ≤ 2) ∧ isDelim c2 ∧
          (2 ≤ rest2.length ∧ rest2.length ≤ 4) ∧ rest2.all Char.isDigit then
      let mm := decodeNat a
      let dd := decodeNat b
      let yy0 := decodeNat rest2
      let yy := if yy0 < 100 then expandTwoDigitYear yy0 else yy0
      some (if 1 ≤ mm ∧ mm ≤ 12 ∧ 1 ≤ dd ∧ dd ≤ 31 ∧ plausible_year yy then
          fmtDate yy mm dd
        else if 1 ≤ dd ∧ dd ≤ 12 ∧ 1 ≤ mm ∧ mm ≤ 31 ∧ plausible_year yy then
          fmtDate yy dd mm
        else [])
      else none
    | (_, []) => none
  | (_, []) => none

/-- Whether the string contains `k` consecutive digits
(`re.search(r'\d{k}', s)`). -/
def hasDigitRun (k : Nat) : List Char → Bool
  | [] => decide (k = 0)
  | c :: rest => decide (k ≤ leadDigits (c :: rest)) || hasDigitRun k rest

/-- Rule 5 (lines 277-278): a string without 4 or 2 consecutive digits
cannot be a date. -/
def stdRule5 (s : List Char) : Option (List Char) :=
  if ¬hasDigitRun 4 s ∧ ¬hasDigitRun 2 s then some [] else none

/-- Lines 224-286: the rule cascade applied to the stripped input: first
rule to fire wins; after rule 5, the external fuzzy parse (`fz`) decides. -/
def standardizeCore (fz : List Char → Option PyDate) (s : List Char) : List Char :=
  match stdRule1 s with
  | some r => r
  | none =>
  match stdRule2 s with
  | some r => r
  | none =>
  match stdRule3 s with
  | some r => r
  | none =>
  match stdRule4 s with
  | some r => r
  | none =>
  match stdRule5 s with
  | some r => r
  | none =>
    match fz s with
    | some dt => if plausible_year dt.year then fmtDate dt.year dt.month dt.day else []
    | none => []

/-- `standardize_date` (lines 220-286).  `fz` is the external
`dateutil_parser.parse(..., fuzzy=True, default=datetime(2000,1,1))`;
`fz s = none` models both "no parse" (an exception) and any failure inside
the library, per the `except: return ''`. -/
def standardize_date (fz : List Char → Option PyDate)
    (date_str : Option (List Char)) : List Char :=
  match date_str with
  | none => []
  | some s0 =>
    if s0 = [] then []
    else standardizeCore fz (trimChars s0)

/-- Modelled from the spec: the external `dateutil` fuzzy parser (§4.6 rule 6,
"a general fuzzy parse"), on the only inputs this development feeds it:
purely numeric year-first strings `YYYY-MM-DD`/`YYYY-M-D`.  dateutil parses
such a string as year, month, day and constructs a `datetime`, which
raises `ValueError` (hence `none`) when the day does not exist in that
calendar month; every other input is conservatively mapped to `none`. -/
def dateutilModel (s : List Char) : Option PyDate :=
  match splitLead s with
  | (a, c1 :: rest1) =>
    match splitLead rest1 with
    | (b, c2 :: rest2) =>
      if a.length = 4 ∧ c1 = '-' ∧ (1 ≤ b.length ∧ b.length ≤ 2) ∧ c2 = '-' ∧
          (1 ≤ rest2.length ∧ rest2.length ≤ 2) ∧ rest2.all Char.isDigit then
        let y := decodeNat a
        let m := decodeNat b
        let d := decodeNat rest2
        if h : validDatetime y m d then
          some ⟨y, m, d, h.2.2.1, h.2.2.2.1, h.2.2.2.2.1,
            le_trans h.2.2.2.2.2 (by
              unfold daysInMonth
              split
              · split <;> omega
              · split <;> omega)⟩
        else none
      else none
    | (_, []) => none
  | (_, []) => none

/-!
### The regex/permutation evaluator (`extract_date_regex_datetime`, lines 319-389)
-/

/-- The five pattern shapes of lines 320-326 (digit fields joined by single
`DELIMS`-class characters). -/
def evalPatterns : List (List (Nat × Nat)) :=
  [[(4, 4), (1, 2), (1, 2)],
   [(1, 2), (1, 2), (2, 4)],
   [(1, 2), (2, 4)],
   [(2, 4), (1, 2)],
   [(4, 4)]]

/-- Lines 329-388: the per-match body of `extract_date_regex_datetime`:
branch on the captured groups; `none` falls through to the next match /
pattern (this includes the `except: continue` taken when `datetime`
rejects a day that does not exist in the month). -/
def regexAccept (fz : List Char → Option PyDate) (gs : List (List Char)) :
    Option (List Char) :=
  match gs with
  | [g0, g1, g2] =>
    if g0.length = 4 then
      let year := decodeNat g0
      let month := decodeNat g1
      let day := decodeNat g2
      if 1 ≤ month ∧ month ≤ 12 ∧ 1 ≤ day ∧ day ≤ 31 ∧ plausible_year year then
        if validDatetime year month day then
          some (standardize_date fz (some (fmtDate year month day)))
        else none
      else none
    else if g2.length = 4 then
      let year := decodeNat g2
      let month := decodeNat g0
      let day := decodeNat g1
      if 1 ≤ month ∧ month ≤ 12 ∧ 1 ≤ day ∧ day ≤ 31 ∧ plausible_year year then
        if validDatetime year month day then
          some (standardize_date fz (some (fmtDate year month day)))
        else none
      else none
    else if g2.length = 2 then
      let year := expandTwoDigitYear (decodeNat g2)
      let month := decodeNat g0
      let day := decodeNat g1
      if 1 ≤ month ∧ month ≤ 12 ∧ 1 ≤ day ∧ day ≤ 31 ∧ plausible_year year then
        if validDatetime year month day then
          some (standardize_date fz (some (fmtDate year month day)))
        else none
      else none
    else none
  | [g1, g2] =>
    let mm_first := decide (1 ≤ g1.length ∧ g1.length ≤ 2) && g1.all Char.isDigit
    let yy_first := decide (g1.length = 2 ∨ g1.length = 4) && g1.all Char.isDigit
    let mm_second := decide (1 ≤ g2.length ∧ g2.length ≤ 2) && g2.all Char.isDigit
    let yy_second := decide (g2.length = 2 ∨ g2.length = 4) && g2.all Char.isDigit
    if mm_first && yy_second then
      let mm := decodeNat g1
      let yy0 := decodeNat g2
      let yy := if yy0 < 100 then expandTwoDigitYear yy0 else yy0
      if 1 ≤ mm ∧ mm ≤ 12 ∧ plausible_year yy then some (fmtDate yy mm 1) else none
    else if yy_first && mm_second then
      let yy0 := decodeNat g1
      let mm := decodeNat g2
      let yy := if yy0 < 100 then expandTwoDigitYear yy0 else yy0
      if 1 ≤ mm ∧ mm ≤ 12 ∧ plausible_year yy then some (fmtDate yy mm 1) else none
    else none
  | [g0] =>
    let yy := decodeNat g0
    if plausible_year yy then some (fmtDate yy 1 1) else none
  | _ => none

/-- `extract_date_regex_datetime` (lines 319-389): scan the five patterns in
order with `re.finditer`; the first match whose branch returns wins. -/
def extract_date_regex_datetime (fz : List Char → Option PyDate)
    (text : List Char) : List Char :=
  (evalPatterns.findSome? fun fields =>
    scanMatches fields isDelim (fun _ _ _ gs => regexAccept fz gs)
      (text.length + 1) none text).getD []

/-!
### The consensus resolver (`consensus_date`, lines 391-407)
-/

/-- `re.fullmatch(r'\d{4}-\d{2}-\d{2}', s)`: exactly two hyphens separating
digit fields of widths 4, 2, 2. -/
def isoWellformed (s : List Char) : Bool :=
  match s.splitOn '-' with
  | [a, b, c] =>
    decide (a.length = 4) && a.all Char.isDigit &&
    decide (b.length = 2) && b.all Char.isDigit &&
    decide (c.length = 2) && c.all Char.isDigit
  | _ => false

/-- Lines 392-398: keep only the stripped, well-formed `YYYY-MM-DD` entries
(in order).  All pipeline inputs are strings, so the `isinstance` test is
always true; `if not d` skips the empty string. -/
def isoFiltered (dates : List (List Char)) : List (List Char) :=
  dates.filterMap fun d =>
    if d = [] then none
    else
      let t := trimChars d
      if isoWellformed t then some t else none

/-- `Counter(iso_dates).most_common(1)[0][0]`: the most frequent value;
`Counter` keys are in first-occurrence order and `most_common` sorts stably
by descending count, so ties go to the value occurring first in the list.
That is exactly the leftmost value of maximal count, computed here by a
strict-improvement fold. -/
def mostCommon (l : List (List Char)) : List Char :=
  match l with
  | [] => []
  | k :: ks => ks.foldl (fun best x => if l.count x > l.count best then x else best) k

/-- `consensus_date` (lines 391-407). -/
def consensus_date (dates : List (List Char)) (two_group : Bool) : List Char :=
  let iso := isoFiltered dates
  if iso = [] then []
  else
    let mc := mostCommon iso
    if two_group then
      match mc.splitOn '-' with
      | [a, b, _] => a ++ '-' :: (b ++ '-' :: ['0', '1'])
      | _ => mc
    else mc

/-!
### Per-row processing (`process_chunk` body, lines 417-455)

The three library-backed evaluators (`extract_date_datefinder`,
`extract_date_dateparser`, `extract_date_parsedatetime`) consist of an
external-library call wrapped in `try/except`; they are parameters
`df`/`dp`/`pdt` of the record builder.
-/

/-- One output record (the six columns appended per row). -/
structure RowRecord where
  evaluated : List Char
  datefinder_date : List Char
  dateparser_date : List Char
  parsedatetime_date : List Char
  regex_date : List Char
  consensus : List Char
deriving DecidableEq, Repr

/-- Lines 417-455: the record computed for one row's text value. -/
def process_record (df dp pdt : List Char → List Char)
    (fz : List Char → Option PyDate) (text : Option (List Char)) : RowRecord :=
  let final_eval := evaluated_element text
  let d1 := df final_eval
  let d2 := dp final_eval
  let d3 := pdt final_eval
  let d4 := extract_date_regex_datetime fz final_eval
  let s1 := standardize_date fz (some d1)
  let s2 := standardize_date fz (some d2)
  let s3 := standardize_date fz (some d3)
  let s4 := standardize_date fz (some d4)
  { evaluated := final_eval
    datefinder_date := s1
    dateparser_date := s2
    parsedatetime_date := s3
    regex_date := s4
    consensus := consensus_date [s1, s2, s3, s4] (twoGroupFlag text) }

/-!
### Spec-side notions

The following definitions follow the specification's words (not the code):
they say what it means for a qualifying group to *occur* somewhere in an
input string, which the spec quantifies over ("if no qualifying 3-field
group exists anywhere in the string", "the rightmost qualifying group").
-/

/-- Spec-side (from §3 "NumericGroup" and §4.1-§4.2): the substring of `t` at
positions `[i, i+L)` is an occurrence of a qualifying group for one fixed
delimiter/pattern combination: the reversed substring matches the pattern
exactly, the substring is not bordered by a digit on either side, and it
passes the locator's acceptance test (`candidateOk`, which is the §4.2
field-order/plausibility resolver plus the structural checks). -/
def specCombOccurrenceAt (t : List Char) (fields : List (Nat × Nat))
    (delim : Char) (n : Nat) (i L : Nat) : Bool :=
  let s := (t.drop i).take L
  let before := if i = 0 then none else (t.drop (i - 1)).head?
  let after := (t.drop (i + L)).head?
  decide (s.length = L) && decide (1 ≤ L) &&
  (before.all fun c => !c.isDigit) && (after.all fun c => !c.isDigit) &&
  (match matchFields fields (· == delim) s.reverse with
   | some (_, L2) => decide (L2 = L)
   | none => false) &&
  candidateOk s delim n

/-- Spec-side: a qualifying `n`-field group occurs at `[i, i+L)` in `t` for
some delimiter and some of the locator's `n`-field patterns. -/
def specQualifyingGroupAt (t : List Char) (n : Nat) (i L : Nat) : Bool :=
  DELIM_LIST.any fun delim =>
    (locatorPatterns.filter fun p => p.1 = n).any fun p =>
      specCombOccurrenceAt t p.2 delim n i L

/-- Spec-side: all `(position, length)` pairs at which a qualifying `n`-field
group occurs in `t`. -/
def specQualifyingOccurrences (t : List Char) (n : Nat) : List (Nat × Nat) :=
  ((List.range (t.length + 1)).map fun i =>
    (List.range (t.length + 1)).filterMap fun L =>
      if specQualifyingGroupAt t n i L then some (i, L) else none).flatten

/-- The day component of a `YYYY-MM-DD` string (the third hyphen-field). -/
def dayComponent (s : List Char) : List Char := (s.splitOn '-').getD 2 []

/-- Spec-side: position of the first occurrence of `v` in `l` ("first
encountered" in the fixed evaluator order). -/
def firstIdx (v : List Char) : List (List Char) → Nat
  | [] => 0
  | x :: t => if x = v then 0 else 1 + firstIdx v t

/-!
## Theorems
-/

/-- C10: the group locator ignores its `num_groups` argument: it returns the
same (group, delimiter, field-count) triple whether it is asked for a
3-field or a 2-field group, for every input. -/
theorem claim10_locator_ignores_num_groups :
    ∀ (text : Option (List Char)),
      extract_same_delim_group_from_reversed text 3 =
        extract_same_delim_group_from_reversed text 2 := by
  intro text
  rfl

/-- Helper: `plausible_year` on a natural number is the 1980-2039 window. -/
theorem plausible_year_nat (y : Nat) :
    plausible_year (y : Int) = true ↔ (1980 ≤ y ∧ y ≤ 2039) := by
  unfold plausible_year
  rw [decide_eq_true_iff]
  constructor
  · intro h
    exact ⟨by exact_mod_cast h.1, by exact_mod_cast h.2⟩
  · intro h
    exact ⟨by exact_mod_cast h.1, by exact_mod_cast h.2⟩

/-- C6: the plausibility checker accepts an integer year `y` exactly when
`1980 ≤ y ≤ 2039`; in particular 1979 and 2040 are rejected, and the date
standardizer (whose every acceptance path tests `plausible_year`) maps the
bare year strings "1979" and "2040" to the empty result for any behaviour
`fz` of the external fuzzy parser. -/
theorem claim6_plausible_year_window :
    (∀ y : Int, plausible_year y = true ↔ (1980 ≤ y ∧ y ≤ 2039)) ∧
    plausible_year 1979 = false ∧ plausible_year 2040 = false ∧
    (∀ fz, standardize_date fz (some (str "1979")) = []) ∧
    (∀ fz, standardize_date fz (some (str "2040")) = []) := by
  refine ⟨fun y => ?_, by decide, by decide, fun fz => rfl, fun fz => rfl⟩
  unfold plausible_year
  exact decide_eq_true_iff

/-- C1 counterexample: the input "2013-12-13-45" contains the qualifying
3-field group "2013-12-13" (at position 0, length 10), yet the locator
returns the 2-field group "2013-12" and the evaluated element is the
synthetic expansion "2013-01-12", which is not even a substring of the
input — so the 2-field expansion path is used although a qualifying 3-field
group exists in the string. -/
theorem claim1_counterexample :
    specQualifyingGroupAt (str "2013-12-13-45") 3 0 10 = true ∧
    ((str "2013-12-13-45").drop 0).take 10 = str "2013-12-13" ∧
    extract_same_delim_group_from_reversed (some (str "2013-12-13-45")) 3 =
      (str "2013-12", some '-', 2) ∧
    evaluated_element (some (str "2013-12-13-45")) = str "2013-01-12" ∧
    ¬ str "2013-01-12" <:+: str "2013-12-13-45" := by
  exact ⟨by decide, by decide, by decide, by decide, by decide⟩

/-- C2 counterexample: on the input "2013-12-13-45" the winning
delimiter/pattern combination is `'-'` with the 2-field pattern
`\d{1,2}-\d{2,4}` (on the reversed string).  The locator returns the group
"2013-12", which occurs at position 0, although "12-13" — a qualifying
occurrence of the very same delimiter/pattern combination — occurs further
right, at position 5: the greedy non-overlapping scan consumed and rejected
a longer match covering it, so the returned group is not the rightmost
qualifying group of the winning combination. -/
theorem claim2_counterexample :
    extract_same_delim_group_from_reversed (some (str "2013-12-13-45")) 3 =
      (str "2013-12", some '-', 2) ∧
    ((str "2013-12-13-45").drop 0).take 7 = str "2013-12" ∧
    specCombOccurrenceAt (str "2013-12-13-45") [(1, 2), (2, 4)] '-' 2 0 7 = true ∧
    specCombOccurrenceAt (str "2013-12-13-45") [(1, 2), (2, 4)] '-' 2 5 5 = true ∧
    ((str "2013-12-13-45").drop 5).take 5 = str "12-13" ∧
    str "12-13" ≠ str "2013-12" := by
  exact ⟨by decide, by decide, by decide, by decide, by decide, by decide⟩

/-- C3 counterexample: in the input "12-13-45" the only qualifying group of
any kind is the 2-field group "12-13" (no 3-field group qualifies), yet the
locator finds nothing at all — the greedy scan consumes "13-45" (reversed
"54-31"), which fails the month test, and skips the qualifying overlap — so
the evaluated element is empty instead of the expansion "12-01-13". -/
theorem claim3_counterexample :
    specQualifyingOccurrences (str "12-13-45") 3 = [] ∧
    specQualifyingOccurrences (str "12-13-45") 2 = [(0, 5)] ∧
    ((str "12-13-45").drop 0).take 5 = str "12-13" ∧
    extract_same_delim_group_from_reversed (some (str "12-13-45")) 2 =
      ([], none, 0) ∧
    evaluated_element (some (str "12-13-45")) = [] ∧
    ([] : List Char) ≠ str "12-01-13" := by
  exact ⟨by decide, by decide, by decide, by decide, by decide, by decide⟩

/-- C4 counterexample: with the two-field flag set, the consensus resolver
does not return the most frequent well-formed value: for the input list
["1999-05-05"] the only (hence most frequent) well-formed value is
"1999-05-05", but the resolver returns the day-truncated "1999-05-01". -/
theorem claim4_counterexample :
    isoFiltered [str "1999-05-05"] = [str "1999-05-05"] ∧
    consensus_date [str "1999-05-05"] true = str "1999-05-01" ∧
    str "1999-05-01" ≠ str "1999-05-05" := by
  exact ⟨by decide, by decide, by decide⟩

/-- Helper: `takeWhile` of a list with no satisfying element is empty. -/
theorem takeWhile_nil_of_none {α : Type} {p : α → Bool} {l : List α}
    (h : ∀ c ∈ l, p c = false) : l.takeWhile p = [] := by
  cases l with
  | nil => rfl
  | cons a t => simp [List.takeWhile_cons, h a (List.mem_cons_self a t)]

/-- Helper: no pattern (all of whose fields need at least one digit) matches
in a digit-free string. -/
theorem matchFields_none_noDigit (fields : List (Nat × Nat)) (sep : Char → Bool)
    (l : List Char) (hf : fields ≠ []) (hlo : ∀ f ∈ fields, 1 ≤ f.1)
    (h : ∀ c ∈ l, c.isDigit = false) : matchFields fields sep l = none := by
  have hr : leadDigits l = 0 := by
    unfold leadDigits
    rw [takeWhile_nil_of_none h]
    rfl
  match fields with
  | [] => exact absurd rfl hf
  | [(lo, hi)] =>
    unfold matchFields
    rw [hr, if_neg]
    have := hlo (lo, hi) (List.mem_cons_self _ _)
    omega
  | (lo, hi) :: f :: fs =>
    unfold matchFields
    rw [hr, if_neg]
    have := hlo (lo, hi) (List.mem_cons_self _ _)
    rintro ⟨hc, -⟩
    omega

/-- Helper: one unfolding step of the finditer scan. -/
theorem scanMatches_succ {α : Type} (fields : List (Nat × Nat)) (sep : Char → Bool)
    (accept : Option Char → List Char → List Char → List (List Char) → Option α)
    (n : Nat) (prev : Option Char) (rest : List Char) :
    scanMatches fields sep accept (n + 1) prev rest =
      match matchFields fields sep rest with
      | some (gs, L) =>
        (accept prev (rest.take L) (rest.drop L) gs).orElse fun _ =>
          scanMatches fields sep accept n (rest.take L).getLast? (rest.drop L)
      | none =>
        match rest with
        | [] => none
        | c :: rs => scanMatches fields sep accept n (some c) rs := rfl

/-- Helper: the finditer scan finds nothing in a digit-free string. -/
theorem scanMatches_none_noDigit {α : Type} (fields : List (Nat × Nat))
    (sep : Char → Bool)
    (accept : Option Char → List Char → List Char → List (List Char) → Option α)
    (hf : fields ≠ []) (hlo : ∀ f ∈ fields, 1 ≤ f.1) :
    ∀ (fuel : Nat) (prev : Option Char) (rest : List Char),
      (∀ c ∈ rest, c.isDigit = false) →
      scanMatches fields sep accept fuel prev rest = none := by
  intro fuel
  induction fuel with
  | zero => intro prev rest h; rfl
  | succ n ih =>
    intro prev rest h
    rw [scanMatches_succ, matchFields_none_noDigit fields sep rest hf hlo h]
    match rest with
    | [] => rfl
    | c :: rs => exact ih (some c) rs fun x hx => h x (List.mem_cons_of_mem c hx)

/-- Helper: `findSome?` of an everywhere-`none` function. -/
theorem findSome?_none {α β : Type} {f : α → Option β} :
    ∀ {l : List α}, (∀ a ∈ l, f a = none) → l.findSome? f = none
  | [], _ => rfl
  | a :: t, h => by
    rw [List.findSome?_cons, h a (List.mem_cons_self a t)]
    exact findSome?_none fun x hx => h x (List.mem_cons_of_mem a hx)

/-- Helper: the locator finds nothing in a digit-free string. -/
theorem extract_noDigit (l : List Char) (h : ∀ c ∈ l, c.isDigit = false)
    (n : Nat) :
    extract_same_delim_group_from_reversed (some l) n = ([], none, 0) := by
  have hrev : ∀ c ∈ l.reverse, c.isDigit = false :=
    fun c hc => h c (List.mem_reverse.mp hc)
  have hpat : ∀ p ∈ locatorPatterns, p.2 ≠ [] ∧ ∀ f ∈ p.2, 1 ≤ f.1 := by decide
  have hcore : extractCore l = none := by
    unfold extractCore
    apply findSome?_none
    intro delim hdelim
    apply findSome?_none
    intro p hp
    rw [scanMatches_none_noDigit p.2 (· == delim) (locatorAccept delim p.1)
      (hpat p hp).1 (hpat p hp).2 (l.reverse.length + 1) none l.reverse hrev]
    rfl
  simp only [extract_same_delim_group_from_reversed]
  rw [hcore]

/-- C8: for every absent/non-string input (`none`) and every string input
with no digit character (which includes the empty string), nothing in the
pipeline fails and the whole output record is empty: the locator reports no
group, the evaluated element is empty, and the four per-evaluator fields and
the consensus field are all empty — provided the three library-backed
evaluators map the empty evaluated element to an empty result, as the spec
requires of them (the regex evaluator, embedded here, provably does). -/
theorem claim8_empty_inputs (df dp pdt : List Char → List Char)
    (fz : List Char → Option PyDate) (h1 : df [] = []) (h2 : dp [] = [])
    (h3 : pdt [] = []) (text : Option (List Char))
    (ht : ∀ l, text = some l → ∀ c ∈ l, c.isDigit = false) :
    extract_same_delim_group_from_reversed text 3 = ([], none, 0) ∧
    evaluated_element text = [] ∧
    process_record df dp pdt fz text = ⟨[], [], [], [], [], []⟩ := by
  have hext : ∀ n, extract_same_delim_group_from_reversed text n = ([], none, 0) := by
    intro n
    match text with
    | none => rfl
    | some l => exact extract_noDigit l (ht l rfl) n
  have hev : evaluated_element text = [] := by
    unfold evaluated_element
    rw [hext 3, hext 2]
    rfl
  have htg : twoGroupFlag text = false := by
    unfold twoGroupFlag
    rw [hext 3, hext 2]
    rfl
  refine ⟨hext 3, hev, ?_⟩
  unfold process_record
  rw [hev, htg]
  simp only [h1, h2, h3]
  rfl

/-- C8 witness: the all-empty record at the digit-free input
"no_numbers_here.txt", with empty-preserving library evaluators. -/
theorem claim8_empty_inputs_witness :
    extract_same_delim_group_from_reversed (some (str "no_numbers_here.txt")) 3 =
      ([], none, 0) ∧
    evaluated_element (some (str "no_numbers_here.txt")) = [] ∧
    process_record (fun _ => []) (fun _ => []) (fun _ => []) (fun _ => none)
      (some (str "no_numbers_here.txt")) = ⟨[], [], [], [], [], []⟩ :=
  claim8_empty_inputs (fun _ => []) (fun _ => []) (fun _ => []) (fun _ => none)
    rfl rfl rfl (some (str "no_numbers_here.txt"))
    (by
      intro l hl
      cases hl
      decide)

/-- Helper: `takeWhile` stops exactly at a separator that fails the predicate. -/
theorem takeWhile_all_append {α : Type} {p : α → Bool} (l1 l2 : List α) (sep : α)
    (h1 : l1.all p = true) (h2 : p sep = false) :
    (l1 ++ sep :: l2).takeWhile p = l1 := by
  induction l1 with
  | nil => simp [List.takeWhile_cons, h2]
  | cons a t ih =>
    rw [List.all_cons, Bool.and_eq_true] at h1
    simp [List.takeWhile_cons, h1.1, ih h1.2]

/-- Helper: `splitLead` on a digit run followed by a non-digit separator. -/
theorem splitLead_append (l1 l2 : List Char) (sep : Char)
    (h1 : l1.all Char.isDigit = true) (h2 : sep.isDigit = false) :
    splitLead (l1 ++ sep :: l2) = (l1, sep :: l2) := by
  unfold splitLead
  rw [takeWhile_all_append l1 l2 sep h1 h2, List.drop_left]

/-- Helper: a list containing a failing element is not `all p`. -/
theorem all_append_sep_false {α : Type} {p : α → Bool} (l1 l2 : List α) (sep : α)
    (h2 : p sep = false) : (l1 ++ sep :: l2).all p = false := by
  simp [List.all_append, List.all_cons, h2]

/-- Helper: `dropWhile` is the identity when no element satisfies `p`. -/
theorem dropWhile_eq_self_of_none {α : Type} {p : α → Bool} {l : List α}
    (h : ∀ c ∈ l, p c = false) : l.dropWhile p = l := by
  cases l with
  | nil => rfl
  | cons a t => simp [List.dropWhile_cons, h a (List.mem_cons_self a t)]

/-- Helper: `strip` is the identity on whitespace-free strings. -/
theorem trimChars_eq_self {l : List Char}
    (h : ∀ c ∈ l, c.isWhitespace = false) : trimChars l = l := by
  unfold trimChars
  rw [dropWhile_eq_self_of_none h,
    dropWhile_eq_self_of_none fun c hc => h c (List.mem_reverse.mp hc),
    List.reverse_reverse]

/-- Helper: rule 1 never fires on a string containing a non-digit. -/
theorem stdRule1_sep (a r : List Char) (sep : Char) (h2 : sep.isDigit = false) :
    stdRule1 (a ++ sep :: r) = none := by
  unfold stdRule1
  rw [if_neg]
  rintro ⟨-, hall⟩
  have := List.all_eq_true.mp hall sep (by simp)
  rw [h2] at this
  cases this

/-- Helper: rule 2 on the canonical decomposition of its input. -/
theorem stdRule2_shape (a r : List Char) (sep : Char)
    (h1 : a.all Char.isDigit = true) (h2 : sep.isDigit = false) :
    stdRule2 (a ++ sep :: r) =
      if (1 ≤ a.length ∧ a.length ≤ 2) ∧ isDelim sep ∧
          (2 ≤ r.length ∧ r.length ≤ 4) ∧ r.all Char.isDigit then
        let mm := decodeNat a
        let yy0 := decodeNat r
        let yy := if yy0 < 100 then expandTwoDigitYear yy0 else yy0
        some (if 1 ≤ mm ∧ mm ≤ 12 ∧ plausible_year yy then fmtDate yy mm 1 else [])
      else none := by
  unfold stdRule2
  rw [splitLead_append a r sep h1 h2]

/-- Helper: rule 3 on the canonical decomposition of its input. -/
theorem stdRule3_shape (a r : List Char) (sep : Char)
    (h1 : a.all Char.isDigit = true) (h2 : sep.isDigit = false) :
    stdRule3 (a ++ sep :: r) =
      if a.length = 4 ∧ isDelim sep ∧
          (1 ≤ r.length ∧ r.length ≤ 2) ∧ r.all Char.isDigit then
        let yy0 := decodeNat a
        let mm := decodeNat r
        let yy := if yy0 < 100 then expandTwoDigitYear yy0 else yy0
        some (if 1 ≤ mm ∧ mm ≤ 12 ∧ plausible_year yy then fmtDate yy mm 1 else [])
      else none := by
  unfold stdRule3
  rw [splitLead_append a r sep h1 h2]

/-- Helper: rule 4 on the canonical decomposition of its input. -/
theorem stdRule4_shape (a b r : List Char) (sep1 sep2 : Char)
    (h1 : a.all Char.isDigit = true) (h2 : sep1.isDigit = false)
    (h3 : b.all Char.isDigit = true) (h4 : sep2.isDigit = false) :
    stdRule4 (a ++ sep1 :: (b ++ sep2 :: r)) =
      if (1 ≤ a.length ∧ a.length ≤ 2) ∧ isDelim sep1 ∧
          (1 ≤ b.length ∧ b.length ≤ 2) ∧ isDelim sep2 ∧
          (2 ≤ r.length ∧ r.length ≤ 4) ∧ r.all Char.isDigit then
        let mm := decodeNat a
        let dd := decodeNat b
        let yy0 := decodeNat r
        let yy := if yy0 < 100 then expandTwoDigitYear yy0 else yy0
        some (if 1 ≤ mm ∧ mm ≤ 12 ∧ 1 ≤ dd ∧ dd ≤ 31 ∧ plausible_year yy then
            fmtDate yy mm dd
          else if 1 ≤ dd ∧ dd ≤ 12 ∧ 1 ≤ mm ∧ mm ≤ 31 ∧ plausible_year yy then
            fmtDate yy dd mm
          else [])
      else none := by
  simp only [stdRule4, splitLead_append a (b ++ sep2 :: r) sep1 h1 h2,
    splitLead_append b r sep2 h3 h4]

/-- Helper: the dateutil model on the canonical decomposition of its input. -/
theorem dateutilModel_shape (a b r : List Char) (sep1 sep2 : Char)
    (h1 : a.all Char.isDigit = true) (h2 : sep1.isDigit = false)
    (h3 : b.all Char.isDigit = true) (h4 : sep2.isDigit = false) :
    dateutilModel (a ++ sep1 :: (b ++ sep2 :: r)) =
      if a.length = 4 ∧ sep1 = '-' ∧ (1 ≤ b.length ∧ b.length ≤ 2) ∧ sep2 = '-' ∧
          (1 ≤ r.length ∧ r.length ≤ 2) ∧ r.all Char.isDigit then
        let y := decodeNat a
        let m := decodeNat b
        let d := decodeNat r
        if h : validDatetime y m d then
          some ⟨y, m, d, h.2.2.1, h.2.2.2.1, h.2.2.2.2.1,
            le_trans h.2.2.2.2.2 (by
              unfold daysInMonth
              split
              · split <;> omega
              · split <;> omega)⟩
        else none
      else none := by
  simp only [dateutilModel, splitLead_append a (b ++ sep2 :: r) sep1 h1 h2,
    splitLead_append b r sep2 h3 h4]

/-- Helper: a leading run of at least 4 digits defeats rule 5. -/
theorem stdRule5_of_leadDigits {s : List Char} (h : 4 ≤ leadDigits s) :
    stdRule5 s = none := by
  have hs : hasDigitRun 4 s = true := by
    cases s with
    | nil => simp [leadDigits] at h
    | cons c t =>
      unfold hasDigitRun
      rw [decide_eq_true h, Bool.true_or]
  unfold stdRule5
  rw [if_neg]
  rintro ⟨h4, -⟩
  rw [hs] at h4
  exact h4 rfl

/-- Helper: facts about 2-digit zero-padding, for every value a 2-digit field
can decode to. -/
theorem pad2_spec : ∀ n, n < 100 →
    (pad 2 n).length = 2 ∧ (pad 2 n).all Char.isDigit = true ∧
    decodeNat (pad 2 n) = n ∧ (pad 2 n).all (fun c => !c.isWhitespace) = true := by
  decide

/-- Helper: facts about 4-digit zero-padding, over the plausible-year window
(stated over the offset from 1980 so the check is 60 small cases). -/
theorem pad4_spec_aux : ∀ k, k < 60 →
    (pad 4 (1980 + k)).length = 4 ∧ (pad 4 (1980 + k)).all Char.isDigit = true ∧
    decodeNat (pad 4 (1980 + k)) = 1980 + k ∧
    (pad 4 (1980 + k)).all (fun c => !c.isWhitespace) = true := by
  decide

/-- Helper: facts about 4-digit zero-padding, over the plausible-year window. -/
theorem pad4_spec : ∀ n, n < 2040 → 1980 ≤ n →
    (pad 4 n).length = 4 ∧ (pad 4 n).all Char.isDigit = true ∧
    decodeNat (pad 4 n) = n ∧ (pad 4 n).all (fun c => !c.isWhitespace) = true := by
  intro n h1 h2
  obtain ⟨k, hk, rfl⟩ : ∃ k, k < 60 ∧ n = 1980 + k := ⟨n - 1980, by omega, by omega⟩
  exact pad4_spec_aux k hk

/-- Helper: every character of `fmtDate y m d` is non-whitespace, for
in-range components. -/
theorem fmtDate_no_ws {y m d : Nat} (hy1 : 1980 ≤ y) (hy2 : y ≤ 2039)
    (hm : m < 100) (hd : d < 100) :
    ∀ c ∈ fmtDate y m d, c.isWhitespace = false := by
  intro c hc
  unfold fmtDate at hc
  have h4 := (pad4_spec y (by omega) hy1).2.2.2
  have h2m := (pad2_spec m hm).2.2.2
  have h2d := (pad2_spec d hd).2.2.2
  rw [List.all_eq_true] at h4 h2m h2d
  rcases List.mem_append.mp hc with h | h
  · have := h4 c h
    simpa using this
  · rcases h with _ | ⟨_, h⟩
    · rfl
    rcases List.mem_append.mp h with h | h
    · have := h2m c h
      simpa using this
    rcases h with _ | ⟨_, h⟩
    · rfl
    have := h2d c h
    simpa using this

/-- C5: for every 2-digit year field `y`, the accepted expanded year is
`1900+y` when that is plausible, else `2000+y` when that is plausible
(offsets tried in that fixed order); when neither expansion is plausible a
candidate carrying the field is rejected (shown on the standardizer, whose
3-field rule — like every component — performs the expansion through
`expandTwoDigitYear` and then requires `plausible_year`). -/
theorem claim5_century_expansion (y : Nat) (hy : y < 100) :
    (plausible_year (1900 + (y : Int)) = true → expandTwoDigitYear y = 1900 + y) ∧
    (plausible_year (1900 + (y : Int)) = false →
      plausible_year (2000 + (y : Int)) = true → expandTwoDigitYear y = 2000 + y) ∧
    (plausible_year (1900 + (y : Int)) = false →
      plausible_year (2000 + (y : Int)) = false →
      ∀ fz, standardize_date fz (some (str "12-31-" ++ pad 2 y)) = []) := by
  refine ⟨fun h1 => ?_, fun h1 h2 => ?_, fun h1 h2 fz => ?_⟩
  · unfold expandTwoDigitYear
    rw [if_pos h1]
  · unfold expandTwoDigitYear
    rw [if_neg (by rw [h1]; exact fun h => nomatch h), if_pos h2]
  · -- neither century is plausible: the 3-field rule fires and rejects.
    have hpad := pad2_spec y hy
    have hshape : str "12-31-" ++ pad 2 y =
        ['1', '2'] ++ '-' :: (['3', '1'] ++ '-' :: pad 2 y) := rfl
    have hws : ∀ c ∈ str "12-31-" ++ pad 2 y, c.isWhitespace = false := by
      intro c hc
      rw [hshape] at hc
      rcases List.mem_append.mp hc with h | h
      · rcases h with _ | ⟨_, h⟩
        · rfl
        rcases h with _ | ⟨_, h⟩
        · rfl
        cases h
      · rcases h with _ | ⟨_, h⟩
        · rfl
        rcases List.mem_append.mp h with h | h
        · rcases h with _ | ⟨_, h⟩
          · rfl
          rcases h with _ | ⟨_, h⟩
          · rfl
          cases h
        · rcases h with _ | ⟨_, h⟩
          · rfl
          have := List.all_eq_true.mp hpad.2.2.2 c h
          simpa using this
    have hne : str "12-31-" ++ pad 2 y ≠ [] := by
      rw [hshape]
      exact fun h => nomatch h
    have hyrej : plausible_year ((expandTwoDigitYear y : Nat) : Int) = false := by
      unfold expandTwoDigitYear
      rw [if_neg (by rw [h1]; exact fun h => nomatch h),
        if_neg (by rw [h2]; exact fun h => nomatch h)]
      unfold plausible_year
      rw [decide_eq_false_iff_not]
      intro hcon
      have : (y : Int) < 100 := by exact_mod_cast hy
      omega
    have hr1 : stdRule1 (str "12-31-" ++ pad 2 y) = none := by
      rw [hshape]
      exact stdRule1_sep ['1', '2'] (['3', '1'] ++ '-' :: pad 2 y) '-' rfl
    have hr2 : stdRule2 (str "12-31-" ++ pad 2 y) = none := by
      rw [hshape]
      rw [stdRule2_shape ['1', '2'] (['3', '1'] ++ '-' :: pad 2 y) '-'
        (by decide) rfl]
      rw [if_neg]
      rintro ⟨-, -, ⟨-, hlen⟩, -⟩
      simp [hpad.1] at hlen
    have hr3 : stdRule3 (str "12-31-" ++ pad 2 y) = none := by
      rw [hshape]
      rw [stdRule3_shape ['1', '2'] (['3', '1'] ++ '-' :: pad 2 y) '-'
        (by decide) rfl]
      rw [if_neg]
      rintro ⟨hlen, -⟩
      simp at hlen
    have hr4 : stdRule4 (str "12-31-" ++ pad 2 y) = some [] := by
      have hdec2 : decodeNat ['1', '2'] = 12 := by decide
      have hdec31 : decodeNat ['3', '1'] = 31 := by decide
      rw [hshape]
      rw [stdRule4_shape ['1', '2'] ['3', '1'] (pad 2 y) '-' '-'
        (by decide) rfl (by decide) rfl]
      rw [if_pos ⟨by decide, by decide, by decide, by decide,
        by rw [hpad.1]; exact ⟨le_refl 2, by omega⟩, hpad.2.1⟩]
      simp only [hdec2, hdec31, hpad.2.2.1, if_pos hy]
      simp [hyrej]
    show standardize_date fz (some (str "12-31-" ++ pad 2 y)) = []
    simp only [standardize_date, standardizeCore]
    rw [if_neg hne, trimChars_eq_self hws, hr1, hr2, hr3, hr4]

/-- C5 witness: "99" expands to 1999, "05" expands to 2005, and a field in
the dead zone ("50") makes the standardizer reject the whole candidate. -/
theorem claim5_century_expansion_witness :
    expandTwoDigitYear 99 = 1999 ∧ expandTwoDigitYear 5 = 2005 ∧
    standardize_date (fun _ => none) (some (str "12-31-" ++ pad 2 50)) = [] :=
  ⟨(claim5_century_expansion 99 (by decide)).1 (by decide),
   (claim5_century_expansion 5 (by decide)).2.1 (by decide) (by decide),
   (claim5_century_expansion 50 (by decide)).2.2 (by decide) (by decide)
     (fun _ => none)⟩

/-- Helper: the possible non-`none` values of rule 1. -/
theorem stdRule1_values {s r : List Char} (h : stdRule1 s = some r) :
    r = [] ∨ ∃ y, 1980 ≤ y ∧ y ≤ 2039 ∧ r = fmtDate y 1 1 := by
  unfold stdRule1 at h
  split at h
  · injection h with h2
    split at h2
    · right
      rename_i hpl
      exact ⟨decodeNat s, ((plausible_year_nat _).mp hpl).1,
        ((plausible_year_nat _).mp hpl).2, h2.symm⟩
    · exact Or.inl h2.symm
  · exact nomatch h

/-- Helper: the value emitted by the month/year branch shape shared by rules
2 and 3. -/
theorem monthYearValue {mm yy : Nat} {r : List Char}
    (h : (if 1 ≤ mm ∧ mm ≤ 12 ∧ plausible_year (yy : Int) = true then
        fmtDate yy mm 1
      else []) = r) :
    r = [] ∨ ∃ y m, 1980 ≤ y ∧ y ≤ 2039 ∧ 1 ≤ m ∧ m ≤ 12 ∧ r = fmtDate y m 1 := by
  split at h
  · rename_i hcond
    right
    exact ⟨yy, mm, ((plausible_year_nat _).mp hcond.2.2).1,
      ((plausible_year_nat _).mp hcond.2.2).2, hcond.1, hcond.2.1, h.symm⟩
  · exact Or.inl h.symm

/-- Helper: the value emitted by rule 4's two-ordering branch shape. -/
theorem mdyValue {mm dd yy : Nat} {r : List Char}
    (h : (if 1 ≤ mm ∧ mm ≤ 12 ∧ 1 ≤ dd ∧ dd ≤ 31 ∧ plausible_year (yy : Int) = true then
        fmtDate yy mm dd
      else if 1 ≤ dd ∧ dd ≤ 12 ∧ 1 ≤ mm ∧ mm ≤ 31 ∧ plausible_year (yy : Int) = true then
        fmtDate yy dd mm
      else []) = r) :
    r = [] ∨ ∃ y m d, 1980 ≤ y ∧ y ≤ 2039 ∧ 1 ≤ m ∧ m ≤ 12 ∧ 1 ≤ d ∧ d ≤ 31 ∧
      r = fmtDate y m d := by
  split at h
  · rename_i hcond
    right
    exact ⟨yy, mm, dd, ((plausible_year_nat _).mp hcond.2.2.2.2).1,
      ((plausible_year_nat _).mp hcond.2.2.2.2).2, hcond.1, hcond.2.1,
      hcond.2.2.1, hcond.2.2.2.1, h.symm⟩
  split at h
  · rename_i hcond
    right
    exact ⟨yy, dd, mm, ((plausible_year_nat _).mp hcond.2.2.2.2).1,
      ((plausible_year_nat _).mp hcond.2.2.2.2).2, hcond.1, hcond.2.1,
      hcond.2.2.1, hcond.2.2.2.1, h.symm⟩
  · exact Or.inl h.symm

/-- Helper: the possible non-`none` values of rule 2. -/
theorem stdRule2_values {s r : List Char} (h : stdRule2 s = some r) :
    r = [] ∨ ∃ y m, 1980 ≤ y ∧ y ≤ 2039 ∧ 1 ≤ m ∧ m ≤ 12 ∧ r = fmtDate y m 1 := by
  unfold stdRule2 at h
  split at h
  · split at h
    · injection h with h2
      exact monthYearValue h2
    · exact nomatch h
  · exact nomatch h

/-- Helper: the possible non-`none` values of rule 3. -/
theorem stdRule3_values {s r : List Char} (h : stdRule3 s = some r) :
    r = [] ∨ ∃ y m, 1980 ≤ y ∧ y ≤ 2039 ∧ 1 ≤ m ∧ m ≤ 12 ∧ r = fmtDate y m 1 := by
  unfold stdRule3 at h
  split at h
  · split at h
    · injection h with h2
      exact monthYearValue h2
    · exact nomatch h
  · exact nomatch h

/-- Helper: the possible non-`none` values of rule 4 (either field order). -/
theorem stdRule4_values {s r : List Char} (h : stdRule4 s = some r) :
    r = [] ∨ ∃ y m d, 1980 ≤ y ∧ y ≤ 2039 ∧ 1 ≤ m ∧ m ≤ 12 ∧ 1 ≤ d ∧ d ≤ 31 ∧
      r = fmtDate y m d := by
  unfold stdRule4 at h
  split at h
  · split at h
    · split at h
      · injection h with h2
        exact mdyValue h2
      · exact nomatch h
    · exact nomatch h
  · exact nomatch h

/-- Helper: rule 5 only ever produces the empty string. -/
theorem stdRule5_values {s r : List Char} (h : stdRule5 s = some r) : r = [] := by
  unfold stdRule5 at h
  split at h
  · injection h with h2
    exact h2.symm
  · exact nomatch h

/-- Helper: `fmtDate` always yields 10 characters for in-range components. -/
theorem fmtDate_length {y m d : Nat} (hy1 : 1980 ≤ y) (hy2 : y ≤ 2039)
    (hm : m < 100) (hd : d < 100) : (fmtDate y m d).length = 10 := by
  have h4 := pad4_spec y (by omega) hy1
  have h2m := pad2_spec m hm
  have h2d := pad2_spec d hd
  show (pad 4 y ++ '-' :: (pad 2 m ++ '-' :: pad 2 d)).length = 10
  simp [h4.1, h2m.1, h2d.1]

/-- C9: every non-empty result of the date standardizer — on every rule,
including the fuzzy-parse fallback, and for every behaviour `fz` of the
external fuzzy parser — is the fixed-width zero-padded string
`fmtDate y m d` (`YYYY-MM-DD`) for a plausible year `y` (1980-2039), a month
in [1,12] and a day in [1,31]; in particular it is 10 characters long. -/
theorem standardizeCore_canonical (fz : List Char → Option PyDate)
    (s : List Char) (hne : standardizeCore fz s ≠ []) :
    ∃ y m d, 1980 ≤ y ∧ y ≤ 2039 ∧ 1 ≤ m ∧ m ≤ 12 ∧ 1 ≤ d ∧ d ≤ 31 ∧
      standardizeCore fz s = fmtDate y m d := by
  unfold standardizeCore at hne ⊢
  match h1 : stdRule1 s with
  | some r =>
    rw [h1] at hne
    rcases stdRule1_values h1 with hr | ⟨y, hy1, hy2, hr⟩
    · exact absurd hr hne
    exact ⟨y, 1, 1, hy1, hy2, le_refl 1, by omega, le_refl 1, by omega, hr⟩
  | none =>
  rw [h1] at hne
  match h2 : stdRule2 s with
  | some r =>
    rw [h2] at hne
    rcases stdRule2_values h2 with hr | ⟨y, m, hy1, hy2, hm1, hm2, hr⟩
    · exact absurd hr hne
    exact ⟨y, m, 1, hy1, hy2, hm1, hm2, le_refl 1, by omega, hr⟩
  | none =>
  rw [h2] at hne
  match h3 : stdRule3 s with
  | some r =>
    rw [h3] at hne
    rcases stdRule3_values h3 with hr | ⟨y, m, hy1, hy2, hm1, hm2, hr⟩
    · exact absurd hr hne
    exact ⟨y, m, 1, hy1, hy2, hm1, hm2, le_refl 1, by omega, hr⟩
  | none =>
  rw [h3] at hne
  match h4 : stdRule4 s with
  | some r =>
    rw [h4] at hne
    rcases stdRule4_values h4 with hr | ⟨y, m, d, hy1, hy2, hm1, hm2, hd1, hd2, hr⟩
    · exact absurd hr hne
    exact ⟨y, m, d, hy1, hy2, hm1, hm2, hd1, hd2, hr⟩
  | none =>
  rw [h4] at hne
  match h5 : stdRule5 s with
  | some r =>
    rw [h5] at hne
    exact absurd (stdRule5_values h5) hne
  | none =>
  rw [h5] at hne
  match h6 : fz s with
  | none =>
    rw [h6] at hne
    exact absurd rfl hne
  | some dt =>
    rw [h6] at hne
    by_cases hpl : plausible_year (dt.year : Int) = true
    · have hy := (plausible_year_nat dt.year).mp hpl
      exact ⟨dt.year, dt.month, dt.day, hy.1, hy.2, dt.month_ge, dt.month_le,
        dt.day_ge, dt.day_le, by simp [hpl]⟩
    · refine absurd ?_ hne
      simp [hpl]

/-- C9: every non-empty result of the date standardizer — on every rule,
including the fuzzy-parse fallback, and for every behaviour `fz` of the
external fuzzy parser — is the fixed-width zero-padded string
`fmtDate y m d` (`YYYY-MM-DD`) for a plausible year `y` (1980-2039), a month
in [1,12] and a day in [1,31]; in particular it is 10 characters long. -/
theorem claim9_standardize_canonical (fz : List Char → Option PyDate)
    (dopt : Option (List Char)) (hne : standardize_date fz dopt ≠ []) :
    ∃ y m d, 1980 ≤ y ∧ y ≤ 2039 ∧ 1 ≤ m ∧ m ≤ 12 ∧ 1 ≤ d ∧ d ≤ 31 ∧
      standardize_date fz dopt = fmtDate y m d ∧
      (standardize_date fz dopt).length = 10 := by
  match dopt with
  | none => exact absurd rfl hne
  | some s0 =>
    by_cases hs0 : s0 = []
    · rw [hs0] at hne
      exact absurd rfl hne
    have heq : standardize_date fz (some s0) = standardizeCore fz (trimChars s0) := by
      simp only [standardize_date]
      rw [if_neg hs0]
    rw [heq] at hne ⊢
    obtain ⟨y, m, d, hy1, hy2, hm1, hm2, hd1, hd2, hr⟩ :=
      standardizeCore_canonical fz (trimChars s0) hne
    refine ⟨y, m, d, hy1, hy2, hm1, hm2, hd1, hd2, hr, ?_⟩
    rw [hr]
    exact fmtDate_length hy1 hy2 (by omega) (by omega)

/-- C9 witness: the invariant instantiated at the bare-year input "2021"
(with a trivial fuzzy parser). -/
theorem claim9_standardize_canonical_witness :
    standardize_date (fun _ => none) (some (str "2021")) ≠ [] ∧
    ∃ y m d, 1980 ≤ y ∧ y ≤ 2039 ∧ 1 ≤ m ∧ m ≤ 12 ∧ 1 ≤ d ∧ d ≤ 31 ∧
      standardize_date (fun _ => none) (some (str "2021")) = fmtDate y m d ∧
      (standardize_date (fun _ => none) (some (str "2021"))).length = 10 :=
  ⟨by decide, claim9_standardize_canonical (fun _ => none) (some (str "2021"))
    (by decide)⟩

/-- Helper: one step of `firstIdx`. -/
theorem firstIdx_cons (v x : List Char) (t : List (List Char)) :
    firstIdx v (x :: t) = if x = v then 0 else 1 + firstIdx v t := rfl

/-- Helper: `firstIdx` of the head. -/
theorem firstIdx_cons_self (v : List Char) (l : List (List Char)) :
    firstIdx v (v :: l) = 0 := by
  rw [firstIdx_cons, if_pos rfl]

/-- Helper: `firstIdx` past a prefix that does not contain the value. -/
theorem firstIdx_append_of_not_mem {v : List Char} :
    ∀ {l1 : List (List Char)} (l2 : List (List Char)), v ∉ l1 →
      firstIdx v (l1 ++ l2) = l1.length + firstIdx v l2
  | [], l2, _ => by simp
  | x :: t, l2, h => by
    have hxv : x ≠ v := fun hcon => h (hcon ▸ List.mem_cons_self x t)
    show firstIdx v (x :: (t ++ l2)) = (x :: t).length + firstIdx v l2
    rw [firstIdx_cons, if_neg hxv,
      firstIdx_append_of_not_mem l2 fun hc => h (List.mem_cons_of_mem x hc)]
    simp [List.length_cons]
    omega

/-- Helper: inversion for `findSome?`. -/
theorem findSome?_some {α β : Type} {f : α → Option β} :
    ∀ {l : List α} {b : β}, l.findSome? f = some b → ∃ a ∈ l, f a = some b := by
  intro l
  induction l with
  | nil => intro b h; exact nomatch h
  | cons a t ih =>
    intro b h
    rw [List.findSome?_cons] at h
    match ha : f a with
    | some c =>
      rw [ha] at h
      injection h with h2
      exact ⟨a, List.mem_cons_self a t, by rw [ha, h2]⟩
    | none =>
      rw [ha] at h
      obtain ⟨x, hx, hfx⟩ := ih h
      exact ⟨x, List.mem_cons_of_mem a hx, hfx⟩

/-- Helper: every hit of the finditer scan comes from an actual match of the
pattern on a suffix of the scanned string, accepted by the callback. -/
theorem scanMatches_sound {α : Type} (fields : List (Nat × Nat)) (sep : Char → Bool)
    (accept : Option Char → List Char → List Char → List (List Char) → Option α) :
    ∀ (fuel : Nat) (prev : Option Char) (rest : List Char) (out : α),
      scanMatches fields sep accept fuel prev rest = some out →
      ∃ prev2 rest2 gs L, rest2 <:+ rest ∧
        matchFields fields sep rest2 = some (gs, L) ∧
        accept prev2 (rest2.take L) (rest2.drop L) gs = some out := by
  intro fuel
  induction fuel with
  | zero => intro prev rest out h; exact nomatch h
  | succ n ih =>
    intro prev rest out h
    rw [scanMatches_succ] at h
    match hm : matchFields fields sep rest with
    | some (gs, L) =>
      rw [hm] at h
      have h' : (accept prev (rest.take L) (rest.drop L) gs).orElse
          (fun _ => scanMatches fields sep accept n
            (rest.take L).getLast? (rest.drop L)) = some out := h
      match hacc : accept prev (rest.take L) (rest.drop L) gs with
      | some o =>
        rw [hacc] at h'
        have h2 : some o = some out := h'
        injection h2 with h3
        exact ⟨prev, rest, gs, L, List.suffix_rfl, hm, by rw [hacc, h3]⟩
      | none =>
        rw [hacc] at h'
        have h2 : scanMatches fields sep accept n
            (rest.take L).getLast? (rest.drop L) = some out := h'
        obtain ⟨p2, r2, gs2, L2, hsuf, hm2, hacc2⟩ := ih _ _ _ h2
        exact ⟨p2, r2, gs2, L2, hsuf.trans (List.drop_suffix L rest), hm2, hacc2⟩
    | none =>
      rw [hm] at h
      match rest, h with
      | c :: rs, h =>
        obtain ⟨p2, r2, gs2, L2, hsuf, hm2, hacc2⟩ := ih _ _ _ h
        exact ⟨p2, r2, gs2, L2, hsuf.trans (List.suffix_cons c rs), hm2, hacc2⟩

/-- Helper: inversion for the locator's per-match acceptance. -/
theorem locatorAccept_sound {delim : Char} {n : Nat} {prev : Option Char}
    {matched after : List Char} {gs : List (List Char)} {cand : List Char}
    (h : locatorAccept delim n prev matched after gs = some cand) :
    cand = matched.reverse ∧ candidateOk cand delim n = true := by
  simp only [locatorAccept] at h
  split at h
  · rename_i hcond
    injection h with h2
    rw [Bool.and_eq_true] at hcond
    rw [← h2]
    exact ⟨rfl, hcond.2⟩
  · exact nomatch h

/-- Helper: a `take` within the leading digit run consists of digits and has
full length. -/
theorem take_leadDigits_spec {l : List Char} {k : Nat} (hk : k ≤ leadDigits l) :
    (l.take k).length = k ∧ (l.take k).all Char.isDigit = true := by
  have hlen : (l.takeWhile Char.isDigit).length ≤ l.length :=
    List.Sublist.length_le (List.takeWhile_sublist Char.isDigit)
  constructor
  · rw [List.length_take]
    unfold leadDigits at hk
    omega
  · rw [List.all_eq_true]
    have htake : ∀ (l : List Char) (k : Nat), k ≤ (l.takeWhile Char.isDigit).length →
        l.take k = (l.takeWhile Char.isDigit).take k := by
      intro l
      induction l with
      | nil => intro k hk2; simp [List.takeWhile]
      | cons a t iht =>
        intro k hk2
        match k with
        | 0 => simp
        | k + 1 =>
          rw [List.takeWhile_cons] at hk2 ⊢
          by_cases hpa : a.isDigit = true
          · rw [if_pos hpa] at hk2 ⊢
            rw [List.length_cons] at hk2
            rw [List.take_succ_cons, List.take_succ_cons]
            rw [iht k (Nat.le_of_succ_le_succ hk2)]
          · rw [if_neg hpa] at hk2
            simp at hk2
    intro c hc
    have hmem : c ∈ l.takeWhile Char.isDigit := by
      rw [htake l k hk] at hc
      exact List.mem_of_mem_take hc
    exact List.mem_takeWhile_imp hmem

/-- Helper: `intercalate` over a single piece and over several pieces. -/
theorem intercalate_single {α : Type} (x : α) (a : List α) :
    [x].intercalate [a] = a := by
  simp [List.intercalate]

/-- Helper: `intercalate` peeled off a nonempty tail. -/
theorem intercalate_cons {α : Type} (x : α) (a : List α) {gs : List (List α)}
    (h : gs ≠ []) : [x].intercalate (a :: gs) = a ++ x :: [x].intercalate gs := by
  match gs with
  | [] => exact absurd rfl h
  | b :: t =>
    simp [List.intercalate, List.intersperse]

/-- Helper: every hit of `matchFields` (with one fixed non-digit delimiter)
is the delimiter-interspersion of nonempty digit fields, one per pattern
field. -/
theorem matchFields_decomp {d : Char} (hd : d.isDigit = false) :
    ∀ (fields : List (Nat × Nat)) (l : List Char) (gs : List (List Char)) (L : Nat),
      (∀ f ∈ fields, 1 ≤ f.1 ∧ 1 ≤ f.2) →
      matchFields fields (· == d) l = some (gs, L) →
      l.take L = [d].intercalate gs ∧ gs.length = fields.length ∧
        ∀ g ∈ gs, g ≠ [] ∧ g.all Char.isDigit = true ∧ d ∉ g := by
  intro fields
  induction fields with
  | nil =>
    intro l gs L hlo h
    exact nomatch h
  | cons fld rest ih =>
    intro l gs L hlo h
    match rest with
    | [] =>
      match fld with
      | (lo, hi) =>
        unfold matchFields at h
        simp only [] at h
        split at h
        · rename_i hr
          injection h with h2
          injection h2 with hgs hL
          have hk : min hi (leadDigits l) ≤ leadDigits l := Nat.min_le_right hi _
          obtain ⟨hlen, hdig⟩ := take_leadDigits_spec hk
          have hne : l.take (min hi (leadDigits l)) ≠ [] := by
            intro hcon
            have hcl := congrArg List.length hcon
            rw [hlen, List.length_nil] at hcl
            have hlo1 := hlo (lo, hi) (List.mem_cons_self _ _)
            omega
          rw [← hgs, ← hL]
          refine ⟨by rw [intercalate_single], rfl, ?_⟩
          intro g hg
          rcases hg with _ | ⟨_, hg⟩
          · refine ⟨hne, hdig, fun hmem => ?_⟩
            have := List.all_eq_true.mp hdig d hmem
            rw [hd] at this
            exact nomatch this
          · exact absurd hg (List.not_mem_nil g)
        · exact nomatch h
    | f2 :: rest2 =>
      match fld with
      | (lo, hi) =>
        unfold matchFields at h
        simp only [] at h
        split at h
        · rename_i hcond
          match hdrop : l.drop (leadDigits l), h with
          | c :: l2, h =>
            simp only [] at h
            split at h
            · rename_i hc
              match hrec : matchFields (f2 :: rest2) (· == d) l2, h with
              | some (gs2, L2), h =>
                simp only [] at h
                injection h with h2
                injection h2 with hgs hL
                have hceq : c = d := by
                  have := of_decide_eq_true hc
                  exact this
                obtain ⟨htail, hlen2, hprops⟩ := ih l2 gs2 L2
                  (fun f hf => hlo f (List.mem_cons_of_mem _ hf)) hrec
                have hkr : leadDigits l ≤ leadDigits l := le_refl _
                obtain ⟨hlen1, hdig1⟩ := take_leadDigits_spec hkr
                have htake : l.take (leadDigits l + 1 + L2) =
                    l.take (leadDigits l) ++ c :: l2.take L2 := by
                  have h1 : leadDigits l + 1 + L2 = leadDigits l + (L2 + 1) := by omega
                  rw [h1, List.take_add, hdrop, List.take_succ_cons]
                have hgs2ne : gs2 ≠ [] := by
                  intro hcon
                  rw [hcon] at hlen2
                  exact nomatch hlen2
                rw [← hgs, ← hL]
                refine ⟨?_, by rw [List.length_cons, hlen2]; simp, ?_⟩
                · rw [htake, intercalate_cons d _ hgs2ne, htail, hceq]
                · intro g hg
                  rcases hg with _ | ⟨_, hg⟩
                  · have hne : l.take (leadDigits l) ≠ [] := by
                      intro hcon
                      have := congrArg List.length hcon
                      rw [hlen1] at this
                      have hlo1 := hlo (lo, hi) (List.mem_cons_self _ _)
                      simp at this
                      omega
                    refine ⟨hne, hdig1, fun hmem => ?_⟩
                    have := List.all_eq_true.mp hdig1 d hmem
                    rw [hd] at this
                    exact nomatch this
                  · exact hprops g hg
            · exact nomatch h
        · exact nomatch h

/-- Helper: reversing a delimiter-interspersion reverses the pieces and each
piece. -/
theorem reverse_intercalate {α : Type} (x : α) :
    ∀ (gs : List (List α)),
      ([x].intercalate gs).reverse = [x].intercalate (gs.map List.reverse).reverse
  | [] => rfl
  | [a] => by
    rw [intercalate_single]
    simp [intercalate_single]
  | a :: b :: t => by
    rw [intercalate_cons x a (by exact fun h => nomatch h)]
    have ih := reverse_intercalate x (b :: t)
    rw [List.reverse_append, List.reverse_cons, ih]
    have hne : ((b :: t).map List.reverse).reverse ≠ [] := by
      intro hcon
      have := congrArg List.length hcon
      simp at this
    conv_rhs => rw [List.map_cons, List.reverse_cons]
    have : [x].intercalate (((b :: t).map List.reverse).reverse ++ [a.reverse]) =
        [x].intercalate (((b :: t).map List.reverse).reverse) ++ x :: a.reverse := by
      generalize hq : ((b :: t).map List.reverse).reverse = q at hne ⊢
      clear hq ih
      induction q with
      | nil => exact absurd rfl hne
      | cons qh qt ihq =>
        match qt with
        | [] =>
          rw [intercalate_single]
          show [x].intercalate [qh, a.reverse] = qh ++ x :: a.reverse
          rw [intercalate_cons x qh (by exact fun h => nomatch h), intercalate_single]
        | q2 :: qt2 =>
          rw [List.cons_append,
            intercalate_cons x qh (by exact fun h => nomatch h),
            intercalate_cons x qh (by exact fun h => nomatch h),
            ihq (by exact fun h => nomatch h)]
          rw [List.append_assoc]
          rfl
    rw [this]
    simp

/-- Helper: facts about the locator's pattern table. -/
theorem locatorPatterns_facts :
    ∀ p ∈ locatorPatterns, p.2.length = p.1 ∧ 2 ≤ p.1 ∧ ∀ f ∈ p.2, 1 ≤ f.1 ∧ 1 ≤ f.2 := by
  decide

/-- Helper: the delimiters are not digits. -/
theorem delims_not_digit : ∀ d ∈ DELIM_LIST, d.isDigit = false := by
  decide

/-- Helper: inversion for the locator: a returned group is the reversal of a
pattern match on a suffix of the reversed text, passes the acceptance test,
splits on the returned delimiter into exactly `n` nonempty digit fields, and
is nonempty. -/
theorem extractCore_sound {t g : List Char} {d : Char} {n : Nat}
    (h : extractCore t = some (g, d, n)) :
    candidateOk g d n = true ∧ g ≠ [] ∧ g.splitOn d ≠ [] ∧
      (g.splitOn d).length = n ∧
      (∀ part ∈ g.splitOn d, part ≠ [] ∧ part.all Char.isDigit = true) ∧
      g <:+: t := by
  unfold extractCore at h
  obtain ⟨delim, hdelim, h2⟩ := findSome?_some h
  obtain ⟨p, hp, h3⟩ := findSome?_some h2
  rw [Option.map_eq_some'] at h3
  obtain ⟨cand, hscan, heq⟩ := h3
  injection heq with heq1 heq2
  injection heq2 with heq2 heq3
  rw [heq1] at hscan
  subst heq2
  subst heq3
  obtain ⟨p2, r2, gs, L, hsuf, hm, hacc⟩ :=
    scanMatches_sound p.2 (· == delim) (locatorAccept delim p.1) _ _ _ _ hscan
  obtain ⟨hcand, hok⟩ := locatorAccept_sound hacc
  have hd := delims_not_digit delim hdelim
  obtain ⟨hplen, hp2, hplo⟩ := locatorPatterns_facts p hp
  obtain ⟨htake, hglen, hprops⟩ := matchFields_decomp hd p.2 r2 gs L hplo hm
  have hrev : g = [delim].intercalate ((gs.map List.reverse).reverse) := by
    rw [hcand, htake, reverse_intercalate]
  have hrevlen : ((gs.map List.reverse).reverse).length = p.1 := by
    rw [List.length_reverse, List.length_map, hglen, hplen]
  have hsplit : g.splitOn delim = (gs.map List.reverse).reverse := by
    rw [hrev]
    apply List.splitOn_intercalate
    · intro l hl hmem
      rw [List.mem_reverse, List.mem_map] at hl
      obtain ⟨gorig, hgo, hgoeq⟩ := hl
      rw [← hgoeq, List.mem_reverse] at hmem
      exact (hprops gorig hgo).2.2 hmem
    · intro hcon
      rw [hcon] at hrevlen
      rw [List.length_nil] at hrevlen
      omega
  have hgne : g ≠ [] := by
    intro hcon
    rw [hcon] at hsplit
    have : ([] : List Char).splitOn delim = [[]] := rfl
    rw [this] at hsplit
    have := congrArg List.length hsplit
    rw [hrevlen] at this
    rw [List.length_cons, List.length_nil] at this
    omega
  refine ⟨hok, hgne, ?_, ?_, ?_, ?_⟩
  · rw [hsplit]
    intro hcon
    rw [hcon] at hrevlen
    rw [List.length_nil] at hrevlen
    omega
  · rw [hsplit, hrevlen]
  · intro part hpart
    rw [hsplit, List.mem_reverse, List.mem_map] at hpart
    obtain ⟨gorig, hgo, hgoeq⟩ := hpart
    obtain ⟨hne, hdig, -⟩ := hprops gorig hgo
    rw [← hgoeq]
    refine ⟨fun hcon => hne (by simpa using congrArg List.reverse hcon), ?_⟩
    rw [List.all_eq_true] at hdig ⊢
    intro c hc
    exact hdig c (List.mem_reverse.mp hc)
  · have hinf : r2.take L <:+: t.reverse :=
      (List.take_prefix L r2).isInfix.trans hsuf.isInfix
    have := List.reverse_infix.mpr hinf
    rw [List.reverse_reverse] at this
    rw [hcand]
    exact this

/-- Helper: the strict-improvement fold used by `mostCommon`: its result is
the initial value or a list element, its score is maximal, and when it beats
the initial value it is the first list element achieving its score. -/
theorem foldBest_spec (c : List Char → Nat) :
    ∀ (ks : List (List Char)) (b : List Char),
      (c b ≤ c (ks.foldl (fun best x => if c x > c best then x else best) b) ∧
        ∀ x ∈ ks, c x ≤ c (ks.foldl (fun best x => if c x > c best then x else best) b)) ∧
      (ks.foldl (fun best x => if c x > c best then x else best) b = b ∨
        ∃ pre suf, ks = pre ++ (ks.foldl (fun best x => if c x > c best then x else best) b) :: suf ∧
          c b < c (ks.foldl (fun best x => if c x > c best then x else best) b) ∧
          ∀ x ∈ pre, c x < c (ks.foldl (fun best x => if c x > c best then x else best) b)) := by
  intro ks
  induction ks with
  | nil =>
    intro b
    exact ⟨⟨le_refl _, fun x hx => absurd hx (List.not_mem_nil x)⟩, Or.inl rfl⟩
  | cons x ks ih =>
    intro b
    by_cases hxb : c x > c b
    · rw [List.foldl_cons, if_pos hxb]
      obtain ⟨⟨hble, hall⟩, hpos⟩ := ih x
      refine ⟨⟨le_trans (le_of_lt hxb) hble, fun y hy => ?_⟩, ?_⟩
      · rcases List.mem_cons.mp hy with rfl | hy
        · exact hble
        · exact hall y hy
      rcases hpos with heq | ⟨pre, suf, hks, hlt, hpre⟩
      · refine Or.inr ⟨[], ks, ?_, by rw [heq]; exact hxb,
          fun y hy => absurd hy (List.not_mem_nil y)⟩
        rw [heq]
        rfl
      · refine Or.inr ⟨x :: pre, suf, ?_, lt_trans hxb hlt, fun y hy => ?_⟩
        · rw [List.cons_append, ← hks]
        rcases List.mem_cons.mp hy with rfl | hy
        · exact hlt
        · exact hpre y hy
    · rw [List.foldl_cons, if_neg hxb]
      push_neg at hxb
      obtain ⟨⟨hble, hall⟩, hpos⟩ := ih b
      refine ⟨⟨hble, fun y hy => ?_⟩, ?_⟩
      · rcases List.mem_cons.mp hy with rfl | hy
        · exact le_trans hxb hble
        · exact hall y hy
      rcases hpos with heq | ⟨pre, suf, hks, hlt, hpre⟩
      · exact Or.inl heq
      · refine Or.inr ⟨x :: pre, suf, ?_, hlt, fun y hy => ?_⟩
        · rw [List.cons_append, ← hks]
        rcases List.mem_cons.mp hy with rfl | hy
        · exact lt_of_le_of_lt hxb hlt
        · exact hpre y hy

/-- Helper: `mostCommon` returns a member of maximal multiplicity, and the
earliest-occurring one among ties (`firstIdx` measures first occurrence). -/
theorem mostCommon_spec (l : List (List Char)) (hne : l ≠ []) :
    mostCommon l ∈ l ∧ (∀ x ∈ l, l.count x ≤ l.count (mostCommon l)) ∧
    ∀ x ∈ l, l.count x = l.count (mostCommon l) →
      firstIdx (mostCommon l) l ≤ firstIdx x l := by
  match l with
  | [] => exact absurd rfl hne
  | k :: ks =>
    have hmc : mostCommon (k :: ks) =
        ks.foldl (fun best x =>
          if (k :: ks).count x > (k :: ks).count best then x else best) k := rfl
    obtain ⟨⟨hkle, hall⟩, hpos⟩ := foldBest_spec (fun v => (k :: ks).count v) ks k
    rw [← hmc] at hkle hall hpos
    refine ⟨?_, ?_, ?_⟩
    · rcases hpos with heq | ⟨pre, suf, hks, -, -⟩
      · rw [heq]
        exact List.mem_cons_self k ks
      · apply List.mem_cons_of_mem k
        have hmm : mostCommon (k :: ks) ∈ pre ++ mostCommon (k :: ks) :: suf :=
          List.mem_append_right pre (List.mem_cons_self _ suf)
        rwa [← hks] at hmm
    · intro x hx
      rcases List.mem_cons.mp hx with rfl | hx
      · exact hkle
      · exact hall x hx
    · intro x hx hcx
      rcases hpos with heq | ⟨pre, suf, hks, hlt, hpre⟩
      · rw [heq, firstIdx_cons_self]
        exact Nat.zero_le _
      · set r := mostCommon (k :: ks) with hrdef
        have hx_not : x ∉ k :: pre := by
          intro hmem
          rcases List.mem_cons.mp hmem with rfl | hmem
          · exact absurd hcx (Nat.ne_of_lt hlt)
          · exact absurd hcx (Nat.ne_of_lt (hpre x hmem))
        have hr_not : r ∉ k :: pre := by
          intro hmem
          rcases List.mem_cons.mp hmem with heq2 | hmem
          · exact absurd rfl (Nat.ne_of_lt (heq2 ▸ hlt))
          · exact absurd rfl (Nat.ne_of_lt (hpre r hmem))
        have hshape : k :: ks = (k :: pre) ++ (r :: suf) := by
          rw [hks]
          rfl
        rw [hshape, firstIdx_append_of_not_mem (r :: suf) hr_not,
          firstIdx_append_of_not_mem (r :: suf) hx_not, firstIdx_cons_self]
        omega

/-- Helper: everything kept by the consensus filter is a well-formed
`YYYY-MM-DD` string. -/
theorem isoFiltered_wf (ds : List (List Char)) :
    ∀ x ∈ isoFiltered ds, isoWellformed x = true := by
  intro x hx
  obtain ⟨a, -, ha⟩ := List.mem_filterMap.mp hx
  split at ha
  · exact nomatch ha
  · by_cases hwf : isoWellformed (trimChars a) = true
    · simp only [hwf, if_true] at ha
      injection ha with ha
      rw [← ha]
      exact hwf
    · simp [hwf] at ha

/-- Helper: `[x].intercalate [a, b, c]` written out. -/
theorem intercalate_three {α : Type} (x : α) (a b c : List α) :
    [x].intercalate [a, b, c] = a ++ x :: (b ++ x :: c) := by
  simp [List.intercalate]

/-- Helper: the shape of a well-formed `YYYY-MM-DD` string. -/
theorem isoWellformed_shape {s : List Char} (h : isoWellformed s = true) :
    ∃ a b c, s = a ++ '-' :: (b ++ '-' :: c) ∧ s.splitOn '-' = [a, b, c] ∧
      a.length = 4 ∧ b.length = 2 ∧ c.length = 2 ∧
      a.all Char.isDigit = true ∧ b.all Char.isDigit = true ∧
      c.all Char.isDigit = true := by
  unfold isoWellformed at h
  split at h
  · rename_i a b c hsplit
    simp only [Bool.and_eq_true, decide_eq_true_eq] at h
    refine ⟨a, b, c, ?_, hsplit, h.1.1.1.1.1, h.1.1.1.2, h.1.2, h.1.1.1.1.2,
      h.1.1.2, h.2⟩
    have : [('-' : Char)].intercalate (s.splitOn '-') = s :=
      List.intercalate_splitOn s '-'
    rw [hsplit, intercalate_three] at this
    exact this.symm
  · exact nomatch h

/-- Helper: a well-formed `YYYY-MM-DD` string is nonempty. -/
theorem isoWellformed_ne_nil {s : List Char} (h : isoWellformed s = true) :
    s ≠ [] := by
  obtain ⟨a, b, c, hs, -, ha, -⟩ := isoWellformed_shape h
  rw [hs]
  intro hcon
  have := congrArg List.length hcon
  simp [ha] at this

/-- Helper: with the two-field flag set, a non-empty consensus has day
component "01". -/
theorem consensus_true_day01 (ds : List (List Char))
    (hne : consensus_date ds true ≠ []) :
    dayComponent (consensus_date ds true) = ['0', '1'] := by
  simp only [consensus_date] at hne ⊢
  by_cases hiso : isoFiltered ds = []
  · rw [if_pos hiso] at hne
    exact absurd rfl hne
  rw [if_neg hiso] at hne ⊢
  have hmem := (mostCommon_spec (isoFiltered ds) hiso).1
  have hwf := isoFiltered_wf ds (mostCommon (isoFiltered ds)) hmem
  obtain ⟨a, b, c, hs, hsplit, ha, hb, hc, hda, hdb, hdc⟩ := isoWellformed_shape hwf
  rw [hsplit] at hne ⊢
  show dayComponent (a ++ '-' :: (b ++ '-' :: ['0', '1'])) = ['0', '1']
  unfold dayComponent
  have hnd : ('-' : Char).isDigit = false := rfl
  have hsplit2 : (a ++ '-' :: (b ++ '-' :: ['0', '1'])).splitOn '-' =
      [a, b, ['0', '1']] := by
    rw [← intercalate_three]
    apply List.splitOn_intercalate
    · intro l hl
      rcases hl with _ | ⟨_, hl⟩
      · intro hmem
        have := List.all_eq_true.mp hda _ hmem
        exact nomatch this
      rcases hl with _ | ⟨_, hl⟩
      · intro hmem
        have := List.all_eq_true.mp hdb _ hmem
        exact nomatch this
      rcases hl with _ | ⟨_, hl⟩
      · decide
      · exact absurd hl (List.not_mem_nil l)
    · exact fun hcon => nomatch hcon
  rw [hsplit2]
  rfl

/-- C4 amended: the consensus resolver discards the non-well-formed inputs,
returns empty iff nothing remains, and otherwise picks the most frequent
remaining value with ties broken by first occurrence in the given (fixed
evaluator) order; when the two-field flag is set the same winning value is
returned with its day field replaced by "01". -/
theorem claim4_consensus_characterization (ds : List (List Char)) :
    (consensus_date ds false = [] ↔ isoFiltered ds = []) ∧
    (isoFiltered ds ≠ [] →
      consensus_date ds false ∈ isoFiltered ds ∧
      (∀ x ∈ isoFiltered ds,
        (isoFiltered ds).count x ≤ (isoFiltered ds).count (consensus_date ds false)) ∧
      (∀ x ∈ isoFiltered ds,
        (isoFiltered ds).count x = (isoFiltered ds).count (consensus_date ds false) →
        firstIdx (consensus_date ds false) (isoFiltered ds) ≤
          firstIdx x (isoFiltered ds)) ∧
      ∃ a b c, consensus_date ds false = a ++ '-' :: (b ++ '-' :: c) ∧
        a.length = 4 ∧ b.length = 2 ∧ c.length = 2 ∧
        consensus_date ds true = a ++ '-' :: (b ++ '-' :: ['0', '1'])) := by
  by_cases hiso : isoFiltered ds = []
  · refine ⟨⟨fun _ => hiso, fun _ => ?_⟩, fun hcon => absurd hiso hcon⟩
    simp only [consensus_date]
    rw [if_pos hiso]
  have hfalse : consensus_date ds false = mostCommon (isoFiltered ds) := by
    simp only [consensus_date]
    rw [if_neg hiso]
    rfl
  obtain ⟨hmem, hmax, hfirst⟩ := mostCommon_spec (isoFiltered ds) hiso
  have hwf := isoFiltered_wf ds (mostCommon (isoFiltered ds)) hmem
  obtain ⟨a, b, c, hs, hsplit, ha, hb, hc, -⟩ := isoWellformed_shape hwf
  refine ⟨⟨fun hcon => ?_, fun hcon => absurd hcon hiso⟩, fun _ => ?_⟩
  · rw [hfalse] at hcon
    exact absurd hcon (isoWellformed_ne_nil hwf)
  refine ⟨hfalse ▸ hmem, fun x hx => hfalse ▸ hmax x hx,
    fun x hx => hfalse ▸ hfirst x hx, a, b, c, hfalse ▸ hs, ha, hb, hc, ?_⟩
  simp only [consensus_date]
  rw [if_neg hiso, hsplit]
  rfl

/-- C4 witness: the characterization at a concrete list with a duplicate
value, a tie-broken value and a malformed entry. -/
theorem claim4_consensus_characterization_witness :
    isoFiltered [str "2021-03-04", str "bad", str "2020-01-02",
      str "2021-03-04"] ≠ [] ∧
    consensus_date [str "2021-03-04", str "bad", str "2020-01-02",
      str "2021-03-04"] false ∈
      isoFiltered [str "2021-03-04", str "bad", str "2020-01-02",
        str "2021-03-04"] :=
  ⟨by decide,
   ((claim4_consensus_characterization [str "2021-03-04", str "bad",
      str "2020-01-02", str "2021-03-04"]).2 (by decide)).1⟩

/-- Helper: no month has more than 31 days. -/
theorem daysInMonth_le (y m : Nat) : daysInMonth y m ≤ 31 := by
  unfold daysInMonth
  split
  · split <;> omega
  · split <;> omega

/-- C7 amended: the standardizer is idempotent on canonical `YYYY-MM-DD`
strings whose year is plausible and whose month/day denote a real calendar
date (day within the month's length) — such strings reach the fuzzy-parse
fallback, which parses them back to the same date; a day that does not exist
in the month (e.g. "2021-02-31") is rejected instead (see the
counterexample). -/
theorem claim7_standardize_idempotent (y m d : Nat) (hy1 : 1980 ≤ y)
    (hy2 : y ≤ 2039) (hm1 : 1 ≤ m) (hm2 : m ≤ 12) (hd1 : 1 ≤ d)
    (hd2 : d ≤ daysInMonth y m) :
    standardize_date dateutilModel (some (fmtDate y m d)) = fmtDate y m d := by
  have hm100 : m < 100 := by omega
  have hd31 : d ≤ 31 := le_trans hd2 (daysInMonth_le y m)
  have hd100 : d < 100 := by omega
  have h4 := pad4_spec y (by omega) hy1
  have h2m := pad2_spec m hm100
  have h2d := pad2_spec d hd100
  have hshape : fmtDate y m d = pad 4 y ++ '-' :: (pad 2 m ++ '-' :: pad 2 d) := rfl
  have hws := fmtDate_no_ws hy1 hy2 hm100 hd100
  have hlen : (fmtDate y m d).length = 10 := by
    rw [hshape]
    simp [h4.1, h2m.1, h2d.1]
  have hne : fmtDate y m d ≠ [] := by
    intro hcon
    rw [hcon] at hlen
    exact nomatch hlen
  have hr1 : stdRule1 (fmtDate y m d) = none := by
    rw [hshape]
    exact stdRule1_sep (pad 4 y) _ '-' rfl
  have hr2 : stdRule2 (fmtDate y m d) = none := by
    rw [hshape, stdRule2_shape (pad 4 y) (pad 2 m ++ '-' :: pad 2 d) '-'
      h4.2.1 rfl, if_neg]
    rintro ⟨⟨-, hlen2⟩, -⟩
    rw [h4.1] at hlen2
    omega
  have hr3 : stdRule3 (fmtDate y m d) = none := by
    rw [hshape, stdRule3_shape (pad 4 y) (pad 2 m ++ '-' :: pad 2 d) '-'
      h4.2.1 rfl, if_neg]
    rintro ⟨-, -, -, hall⟩
    rw [all_append_sep_false (pad 2 m) (pad 2 d) '-'
      (show ('-').isDigit = false from rfl)] at hall
    exact nomatch hall
  have hr4 : stdRule4 (fmtDate y m d) = none := by
    rw [hshape, stdRule4_shape (pad 4 y) (pad 2 m) (pad 2 d) '-' '-'
      h4.2.1 rfl h2m.2.1 rfl, if_neg]
    rintro ⟨⟨-, hlen2⟩, -⟩
    rw [h4.1] at hlen2
    omega
  have hr5 : stdRule5 (fmtDate y m d) = none := by
    apply stdRule5_of_leadDigits
    rw [hshape]
    unfold leadDigits
    rw [takeWhile_all_append (pad 4 y) _ '-' h4.2.1 rfl, h4.1]
  have hmodel : dateutilModel (fmtDate y m d) = some ⟨y, m, d, hm1, hm2, hd1, hd31⟩ := by
    rw [hshape, dateutilModel_shape (pad 4 y) (pad 2 m) (pad 2 d) '-' '-'
      h4.2.1 rfl h2m.2.1 rfl]
    rw [if_pos ⟨h4.1, rfl, by rw [h2m.1]; exact ⟨one_le_two, le_refl 2⟩, rfl,
      by rw [h2d.1]; exact ⟨one_le_two, le_refl 2⟩, h2d.2.1⟩]
    simp only [h4.2.2.1, h2m.2.2.1, h2d.2.2.1]
    rw [dif_pos ⟨by omega, by omega, hm1, hm2, hd1, hd2⟩]
  simp only [standardize_date, standardizeCore]
  rw [if_neg hne, trimChars_eq_self hws, hr1, hr2, hr3, hr4, hr5, hmodel]
  show (if plausible_year (y : Int) = true then fmtDate y m d else []) = fmtDate y m d
  rw [if_pos ((plausible_year_nat y).mpr ⟨hy1, hy2⟩)]

/-- C7 witness: the amended idempotence at the calendar-valid date 2021-02-28. -/
theorem claim7_standardize_idempotent_witness :
    standardize_date dateutilModel (some (fmtDate 2021 2 28)) = fmtDate 2021 2 28 :=
  claim7_standardize_idempotent 2021 2 28 (by decide) (by decide) (by decide)
    (by decide) (by decide) (by decide)

/-- C7 counterexample: "2021-02-31" is a canonical-shaped `YYYY-MM-DD` string
with plausible year, month in [1,12] and day in [1,31], but the standardizer
does not return it unchanged: the fuzzy-parse fallback (dateutil building a
real `datetime`) rejects 31 February, so the result is the empty string. -/
theorem claim7_counterexample :
    isoWellformed (str "2021-02-31") = true ∧
    standardize_date dateutilModel (some (str "2021-02-31")) = [] ∧
    ([] : List Char) ≠ str "2021-02-31" := by
  exact ⟨by decide, by decide, by decide⟩

/-- C1 (amended): when the locator finds a 3-field group, the caller uses
that raw group verbatim as the evaluated element and the two-group flag is
not set.  (The claim's further assertion — that the 2-field expansion path
is taken only when no qualifying 3-field group exists anywhere in the
input — is refuted by the counterexample.) -/
theorem claim1_three_field_verbatim (t g : List Char) (d : Char)
    (h : extractCore t = some (g, d, 3)) :
    evaluated_element (some t) = g ∧ twoGroupFlag (some t) = false := by
  obtain ⟨-, hgne, -, hslen, -, -⟩ := extractCore_sound h
  have hr : extract_same_delim_group_from_reversed (some t) 3 = (g, some d, 3) := by
    simp only [extract_same_delim_group_from_reversed, h]
  have hr2 : extract_same_delim_group_from_reversed (some t) 2 = (g, some d, 3) := by
    simp only [extract_same_delim_group_from_reversed, h]
  constructor
  · simp only [evaluated_element, hr, hr2]
    simp [hgne, hslen]
  · simp only [twoGroupFlag, hr, hr2]
    simp [hgne, hslen]

/-- C1 witness: on "Report_2021-07-15_final.xlsx" the locator returns the
3-field group "2021-07-15", which is the evaluated element verbatim. -/
theorem claim1_three_field_verbatim_witness :
    evaluated_element (some (str "Report_2021-07-15_final.xlsx")) =
      str "2021-07-15" ∧
    twoGroupFlag (some (str "Report_2021-07-15_final.xlsx")) = false :=
  claim1_three_field_verbatim (str "Report_2021-07-15_final.xlsx")
    (str "2021-07-15") '-' (by decide)

/-- C2 (amended): on the input "2020-01-01_report_03-15-21.pdf" the locator
selects exactly "03-15-21" — not "2020-01-01" — and that group is the
evaluated element; moreover every group the locator returns is a contiguous
substring of the input.  (The claim's general assertion that the returned
group is the rightmost qualifying occurrence of the winning
delimiter/pattern combination is refuted by the counterexample.) -/
theorem claim2_rightmost_selection :
    extract_same_delim_group_from_reversed
        (some (str "2020-01-01_report_03-15-21.pdf")) 3 =
      (str "03-15-21", some '-', 3) ∧
    evaluated_element (some (str "2020-01-01_report_03-15-21.pdf")) =
      str "03-15-21" ∧
    ∀ (t g : List Char) (d : Char) (n : Nat),
      extractCore t = some (g, d, n) → g <:+: t := by
  refine ⟨by decide, by decide, fun t g d n h => (extractCore_sound h).2.2.2.2.2⟩

/-- C2 witness: the selected group "03-15-21" is a substring of the input
"2020-01-01_report_03-15-21.pdf". -/
theorem claim2_rightmost_selection_witness :
    str "03-15-21" <:+: str "2020-01-01_report_03-15-21.pdf" :=
  claim2_rightmost_selection.2.2 (str "2020-01-01_report_03-15-21.pdf")
    (str "03-15-21") '-' 3 (by decide)

/-- C3 (amended): whenever the locator returns a 2-field group with fields
f1, f2 and delimiter d, the evaluated element is f1 + d + "01" + d + f2, the
two-group flag is set, and every non-empty consensus result computed under
that flag has day component "01".  (The claim's trigger — every input whose
only qualifying group is a 2-field group — is refuted by the counterexample,
where the locator returns nothing for such an input.) -/
theorem claim3_two_field_expansion (t g f1 f2 : List Char) (d : Char)
    (h : extractCore t = some (g, d, 2)) (hsplit : g.splitOn d = [f1, f2]) :
    evaluated_element (some t) = f1 ++ d :: '0' :: '1' :: d :: f2 ∧
    twoGroupFlag (some t) = true ∧
    ∀ ds : List (List Char), consensus_date ds true ≠ [] →
      dayComponent (consensus_date ds true) = ['0', '1'] := by
  obtain ⟨-, hgne, -, -, -, -⟩ := extractCore_sound h
  have hr : extract_same_delim_group_from_reversed (some t) 3 = (g, some d, 2) := by
    simp only [extract_same_delim_group_from_reversed, h]
  have hr2 : extract_same_delim_group_from_reversed (some t) 2 = (g, some d, 2) := by
    simp only [extract_same_delim_group_from_reversed, h]
  refine ⟨?_, ?_, fun ds hne => consensus_true_day01 ds hne⟩
  · simp only [evaluated_element, hr, hr2]
    simp [hgne, hsplit]
  · simp only [twoGroupFlag, hr, hr2]
    simp [hgne, hsplit]

/-- C3 witness: on "Analysis_Contracts-11-05.pdf" the locator returns the
2-field group "11-05" and the evaluated element is the expansion "11-01-05";
a non-empty consensus under the two-group flag has day component "01". -/
theorem claim3_two_field_expansion_witness :
    evaluated_element (some (str "Analysis_Contracts-11-05.pdf")) =
      str "11-01-05" ∧
    dayComponent (consensus_date [str "2021-11-05"] true) = ['0', '1'] := by
  have h := claim3_two_field_expansion (str "Analysis_Contracts-11-05.pdf")
    (str "11-05") (str "11") (str "05") '-' (by decide) (by decide)
  exact ⟨h.1, h.2.2 [str "2021-11-05"] (by decide)⟩

end ExtractDates
